import Mathlib

/-!
Verification of the course-catalog / term-planner library (`src/lib.rs`).

The Rust source is embedded shallowly:
* `HashMap<String, Course>` becomes a `List Course` keyed by the `name` field
  (`masterInsert` replaces the entry with the same key, as `HashMap::insert` does);
* `MultiMap<String, String>` becomes an association list `MMap`
  (`List (CourseName × List CourseName)`) whose operations mirror the
  `multimap` crate operations that the source uses;
* `HashSet<String>` becomes a duplicate-free `List String` maintained by
  `insSet`, and set union by `unionS`;
* `u8` quantities (credits, units, limits) become `Nat`; no arithmetic in
  the source is intended to overflow (debug Rust would abort on overflow);
* code that can panic (`unwrap`, `expect`) returns `Option`, `none` being the
  fatal outcome;
* the two unbounded recursions of the source (the concurrency-closure DFS
  and the prerequisite propagation) and the planner's `while` loop take an
  explicit fuel argument.  Running out of fuel yields `none`, which is
  propagated everywhere, so every `some` result of the model corresponds to
  a complete execution of the source.
-/

set_option autoImplicit false

abbrev CourseName := String

inductive TermType where
  | Fall
  | Winter
  | Spring
  | Summer
deriving DecidableEq, Repr

/-- `Courses::get_next_term_for`. -/
def TermType.next : TermType → TermType
  | .Fall => .Winter
  | .Winter => .Spring
  | .Spring => .Summer
  | .Summer => .Fall

/-- `Course`: the `[bool; 4]` availability array, indexed by the `TermType`
cast to `usize`, is modelled as a function `TermType → Bool`. -/
structure Course where
  name : CourseName
  credits : Nat
  availability : TermType → Bool

/-- `Course::new`. -/
def Course.new (name : CourseName) (credits : Nat) : Course :=
  ⟨name, credits, fun _ => false⟩

/-- `Course::available_by`. -/
def Course.availableBy (c : Course) (t : TermType) : Course :=
  { c with availability := fun u => if u = t then true else c.availability u }

/-- `Course::not_available_by`. -/
def Course.notAvailableBy (c : Course) (t : TermType) : Course :=
  { c with availability := fun u => if u = t then false else c.availability u }

/-- `self.availability.iter().all(|&x| !x)` from `Course::is_available`. -/
def Course.allUnavailable (c : Course) : Bool :=
  !(c.availability .Fall) && !(c.availability .Winter) &&
    !(c.availability .Spring) && !(c.availability .Summer)

/-- `Course::is_available`. -/
def Course.isAvailable (c : Course) (t : TermType) : Bool :=
  if c.allUnavailable then true else c.availability t

/-- `Term`: `courses: HashSet<(String, u8)>` becomes a list managed with
membership-checked insertion (`Term.add`). -/
structure Term where
  term_type : TermType
  courses : List (CourseName × Nat)
  units : Nat
  unit_limit : Nat
deriving DecidableEq, Repr

/-- `Term::new`. -/
def Term.new (t : TermType) (limit : Nat) : Term :=
  ⟨t, [], 0, limit⟩

/-- `Term::is_full`. -/
def Term.isFull (t : Term) : Bool :=
  t.units == t.unit_limit

/-- `Term::can_add_course_units`. -/
def Term.canAddUnits (t : Term) (u : Nat) : Bool :=
  decide (u + t.units ≤ t.unit_limit)

/-- `Term::can_add_course`. -/
def Term.canAddCourse (t : Term) (c : Course) : Bool :=
  t.canAddUnits c.credits

/-- `Term::add`: `HashSet::insert` returns whether the pair was new, and the
units counter grows only in that case. -/
def Term.add (t : Term) (c : Course) : Term :=
  if (c.name, c.credits) ∈ t.courses then t
  else { t with courses := t.courses ++ [(c.name, c.credits)], units := t.units + c.credits }

/-- `Term::is_empty`. -/
def Term.isEmpty (t : Term) : Bool :=
  t.courses.isEmpty

/-- The names assigned to a planned term. -/
def termNames (t : Term) : List CourseName :=
  t.courses.map Prod.fst

/-- `MultiMap<String, String>`: association list from key to its value vector. -/
abbrev MMap := List (CourseName × List CourseName)

/-- `MultiMap::get_vec`. -/
def MMap.getVec : MMap → CourseName → Option (List CourseName)
  | [], _ => none
  | e :: rest, k => if e.1 = k then some e.2 else MMap.getVec rest k

/-- The value vector of a key, empty when the key is absent. -/
def MMap.vecOf (m : MMap) (k : CourseName) : List CourseName :=
  (m.getVec k).getD []

/-- `MultiMap::contains_key`. -/
def MMap.containsKey (m : MMap) (k : CourseName) : Bool :=
  (m.getVec k).isSome

/-- `MultiMap::insert`: appends to the key's vector, or creates the entry. -/
def MMap.insertMM : MMap → CourseName → CourseName → MMap
  | [], k, v => [(k, [v])]
  | e :: rest, k, v =>
    if e.1 = k then (e.1, e.2 ++ [v]) :: rest else e :: MMap.insertMM rest k v

/-- Replace a key's whole value vector (used to model in-place `Vec` edits
through `get_vec_mut`). -/
def MMap.setVec : MMap → CourseName → List CourseName → MMap
  | [], _, _ => []
  | e :: rest, k, v =>
    if e.1 = k then (e.1, v) :: rest else e :: MMap.setVec rest k v

/-- All strings occurring in some value vector of the multimap. -/
def MMap.valsOf : MMap → List CourseName
  | [] => []
  | e :: rest => e.2 ++ MMap.valsOf rest

/-- `HashSet::insert` on a duplicate-free list. -/
def insSet (l : List CourseName) (x : CourseName) : List CourseName :=
  if x ∈ l then l else l ++ [x]

/-- `HashSet::union` on duplicate-free lists. -/
def unionS (a b : List CourseName) : List CourseName :=
  a ++ b.filter (fun x => decide (x ∉ a))

/-- The iteration step of `Courses::get_concurrents_with_memory`: walk the
value vector, skipping neighbours already seen and recursing (through `rec`)
into the rest, accumulating the union of the found sets. -/
def gcwmLoop (rec : CourseName → List CourseName → Option (List CourseName × List CourseName)) :
    List CourseName → List CourseName → List CourseName →
      Option (List CourseName × List CourseName)
  | [], found, seen => some (found, seen)
  | v :: rest, found, seen =>
    if v ∈ seen then gcwmLoop rec rest found seen
    else
      match rec v seen with
      | none => none
      | some (fv, s') => gcwmLoop rec rest (unionS found fv) s'

/-- `Courses::get_concurrents_with_memory` (fuelled): inserts the course into
the seen set, takes its value vector as the initial found set and folds
`gcwmLoop` over the neighbours.  Returns the found set and the final seen
set. -/
def gcwm (m : MMap) : Nat → CourseName → List CourseName →
    Option (List CourseName × List CourseName)
  | 0, _, _ => none
  | fuel + 1, course, seen =>
    match m.getVec course with
    | none => some ([], insSet seen course)
    | some vs => gcwmLoop (gcwm m fuel) vs vs.dedup (insSet seen course)

/-- `Courses` (the catalog store). -/
structure Courses where
  master : List Course
  prerequisites : MMap
  concurrencies : MMap

/-- `Courses::new`. -/
def Courses.empty : Courses :=
  ⟨[], [], []⟩

/-- `HashMap::get` on the master list. -/
def lookupCourse (master : List Course) (n : CourseName) : Option Course :=
  master.find? (fun c => decide (c.name = n))

/-- `HashMap::insert` keyed by the course name. -/
def masterInsert : List Course → Course → List Course
  | [], c => [c]
  | e :: rest, c => if e.name = c.name then c :: rest else e :: masterInsert rest c

/-- `Courses::add_course`. -/
def Courses.addCourse (st : Courses) (c : Course) : Courses :=
  { st with master := masterInsert st.master c }

/-- `Courses::len`. -/
def Courses.len (st : Courses) : Nat :=
  st.master.length

/-- `Courses::get_concurrents_units`: sums master-list credits over the
closure, `none` when a member is missing from the master list (the source
would abort through `expect`). -/
def concUnits (master : List Course) : List CourseName → Option Nat
  | [] => some 0
  | n :: rest =>
    match lookupCourse master n, concUnits master rest with
    | some c, some s => some (c.credits + s)
    | _, _ => none

/-- `Courses::get_concurrents_for`: runs the DFS with fuel that always
suffices (one level per distinct value, plus the start), returns `some none`
when the found set is empty and otherwise the set with its total credits. -/
def getConcurrentsFor (conc : MMap) (master : List Course) (course : CourseName) :
    Option (Option (List CourseName × Nat)) :=
  match gcwm conc (conc.valsOf.length + 1) course [] with
  | none => none
  | some (found, _) =>
    if found.isEmpty then some none
    else
      match concUnits master found with
      | none => none
      | some u => some (some (found, u))

/-- The iteration of `Courses::add_prerequisite_to_concurrent` over the
concurrency closure, threading the prerequisite map and the seen set. -/
def appLoop (rec : CourseName → MMap → List CourseName → Option (MMap × List CourseName)) :
    List CourseName → MMap → List CourseName → Option (MMap × List CourseName)
  | [], pm, seen => some (pm, seen)
  | c :: rest, pm, seen =>
    match rec c pm seen with
    | none => none
    | some (pm', s') => appLoop rec rest pm' s'

/-- `Courses::add_prerequisite_to_concurrent` (fuelled): early return when the
course was already seen, otherwise record the edge, mark the course seen and
recurse over its concurrency closure. -/
def addPrereqToConcurrent (conc : MMap) (master : List Course) (dep : CourseName) :
    Nat → CourseName → MMap → List CourseName → Option (MMap × List CourseName)
  | 0, _, _, _ => none
  | fuel + 1, course, pm, seen =>
    if course ∈ seen then some (pm, seen)
    else
      match getConcurrentsFor conc master course with
      | none => none
      | some none => some (pm.insertMM course dep, insSet seen course)
      | some (some (s, _)) =>
        appLoop (addPrereqToConcurrent conc master dep fuel) s
          (pm.insertMM course dep) (insSet seen course)

/-- `Courses::get_prerequisites` (the returned `HashSet` is represented by
the underlying vector; all claims use it through membership). -/
def Courses.getPrerequisites (st : Courses) (c : CourseName) : Option (List CourseName) :=
  st.prerequisites.getVec c

/-- `Courses::add_prerequisite`. -/
def Courses.addPrerequisite (st : Courses) (course dep : CourseName) : Option Courses :=
  if st.concurrencies.containsKey course then
    match addPrereqToConcurrent st.concurrencies st.master dep
        (st.concurrencies.valsOf.length + 2) course st.prerequisites [] with
    | none => none
    | some (pm, _) => some { st with prerequisites := pm }
  else some { st with prerequisites := st.prerequisites.insertMM course dep }

/-- `Courses::remove_prerequisite`. -/
def Courses.removePrerequisite (st : Courses) (course dep : CourseName) :
    Option CourseName × Courses :=
  match st.prerequisites.getVec course with
  | none => (none, st)
  | some v =>
    match v.findIdx? (fun x => decide (x = dep)) with
    | none => (none, st)
    | some i =>
      (some dep, { st with prerequisites := st.prerequisites.setVec course (v.eraseIdx i) })

/-- The two `for` loops of `Courses::combine_concurrent_prerequisites`. -/
def combineLoop (target : CourseName) : List CourseName → Courses → Option Courses
  | [], st => some st
  | q :: rest, st =>
    match st.addPrerequisite target q with
    | none => none
    | some st' => combineLoop target rest st'

/-- `Courses::combine_concurrent_prerequisites`: both difference sets are
computed from the two prerequisite sets read at entry, exactly as in the
source. -/
def Courses.combineConcurrentPrereqs (st : Courses) (course dep : CourseName) : Option Courses :=
  let cp := ((st.getPrerequisites course).getD []).dedup
  let dp := ((st.getPrerequisites dep).getD []).dedup
  match combineLoop dep (cp.filter (fun x => decide (x ∉ dp))) st with
  | none => none
  | some st1 => combineLoop course (dp.filter (fun x => decide (x ∉ cp))) st1

/-- `Courses::add_concurrency`: reconcile prerequisites first when either
endpoint has any, then record both directed edges. -/
def Courses.addConcurrency (st : Courses) (a b : CourseName) : Option Courses :=
  match (if st.prerequisites.containsKey a || st.prerequisites.containsKey b
      then st.combineConcurrentPrereqs a b else some st) with
  | none => none
  | some st1 =>
    some { st1 with concurrencies := (st1.concurrencies.insertMM a b).insertMM b a }

/-- `Courses::get_concurrents_for` as a method of the catalog. -/
def Courses.getConcurrentsForC (st : Courses) (c : CourseName) :
    Option (Option (List CourseName × Nat)) :=
  getConcurrentsFor st.concurrencies st.master c

/-- `Courses::remove_concurrency`: `some none` is the normal "not found"
result from the missing-key guard; the two `unwrap`s on `position` are
modelled by the fatal `none`. -/
def Courses.removeConcurrency (st : Courses) (a b : CourseName) :
    Option (Option (CourseName × CourseName) × Courses) :=
  if !(st.concurrencies.containsKey a) || !(st.concurrencies.containsKey b) then
    some (none, st)
  else
    match st.concurrencies.getVec a with
    | none => none
    | some va =>
      match va.findIdx? (fun x => decide (x = b)) with
      | none => none
      | some i =>
        let m1 := st.concurrencies.setVec a (va.eraseIdx i)
        match m1.getVec b with
        | none => none
        | some vb =>
          match vb.findIdx? (fun x => decide (x = a)) with
          | none => none
          | some j => some (some (a, b), { st with concurrencies := m1.setVec b (vb.eraseIdx j) })

/-- `Courses::get_term_courses_for`. -/
def Courses.getTermCoursesFor (st : Courses) (t : TermType) : List CourseName :=
  (st.master.filter (fun c => c.isAvailable t)).map Course.name

/-- The mutable state of the `get_terms` loop. -/
structure PlanState where
  fall : List CourseName
  winter : List CourseName
  spring : List CourseName
  summer : List CourseName
  prereqs : MMap
  processed : List CourseName
  terms : List Term
  cur : TermType

/-- The candidate list selected by the `match current_term` in `get_terms`. -/
def PlanState.listFor (s : PlanState) : List CourseName :=
  match s.cur with
  | .Fall => s.fall
  | .Winter => s.winter
  | .Spring => s.spring
  | .Summer => s.summer

/-- The closure-insertion loop of `get_terms`: add every closure member to
the term and to the processed set, `none` when a member is missing from the
master list (the source would abort through `unwrap`). -/
def addClosure (master : List Course) :
    List CourseName → Term → List CourseName → Option (Term × List CourseName)
  | [], t, pr => some (t, pr)
  | n :: rest, t, pr =>
    match lookupCourse master n with
    | none => none
    | some c => addClosure master rest (t.add c) (insSet pr c.name)

/-- The candidate loop of one planning pass (`for course_name in term_courses`
in `get_terms`), with the `is_full` break, the unresolved-prerequisite and
capacity skips, and the concurrency-closure branch. -/
def sched (master : List Course) (conc : MMap) (pm : MMap) :
    List CourseName → Term → List CourseName → Option (Term × List CourseName)
  | [], t, pr => some (t, pr)
  | n :: rest, t, pr =>
    if t.isFull then some (t, pr)
    else
      match lookupCourse master n with
      | none => none
      | some c =>
        if pm.containsKey n || !(t.canAddCourse c) then sched master conc pm rest t pr
        else
          match getConcurrentsFor conc master n with
          | none => none
          | some (some (s, u)) =>
            if !(t.canAddUnits u) then sched master conc pm rest t pr
            else
              match addClosure master s t pr with
              | none => none
              | some (t', pr') => sched master conc pm rest t' pr'
          | some none => sched master conc pm rest (t.add c) (insSet pr c.name)

/-- Per-vector part of the end-of-pass pruning: first the `iter_all_mut`
loop drops processed names, then `retain`'s per-value predicate
`v.len() > 0` keeps exactly the non-empty names. -/
def pruneVec (v : List CourseName) (pr : List CourseName) : List CourseName :=
  (v.filter (fun x => decide (x ∉ pr))).filter (fun x => decide (x ≠ ""))

/-- End-of-pass pruning of the working prerequisite copy: the `iter_all_mut`
loop drops processed names from every value vector, and then
`retain(|_k, v| v.len() > 0)` runs.  The `multimap` crate applies a `retain`
predicate to every value string, so `v.len() > 0` keeps exactly the
non-empty names — deleting the empty-string name from every vector — and the
crate then drops every key whose vector has become empty (`pruneVec` is the
per-vector part of this). -/
def pruneMM (m : MMap) (pr : List CourseName) : MMap :=
  (m.map (fun e => (e.1, pruneVec e.2 pr))).filter (fun e => !e.2.isEmpty)

/-- One iteration of the `while` loop of `get_terms`: run the candidate loop,
prune the four candidate lists and the prerequisite copy, push the term when
non-empty, advance the term kind. -/
def passOnce (master : List Course) (conc : MMap) (limits : TermType → Nat)
    (s : PlanState) : Option PlanState :=
  match sched master conc s.prereqs s.listFor (Term.new s.cur (limits s.cur)) s.processed with
  | none => none
  | some (t, pr') =>
    some { fall := s.fall.filter (fun x => decide (x ∉ pr'))
           winter := s.winter.filter (fun x => decide (x ∉ pr'))
           spring := s.spring.filter (fun x => decide (x ∉ pr'))
           summer := s.summer.filter (fun x => decide (x ∉ pr'))
           prereqs := pruneMM s.prereqs pr'
           processed := pr'
           terms := if t.isEmpty then s.terms else s.terms ++ [t]
           cur := s.cur.next }

/-- The `while processed < total` loop of `get_terms`, fuelled; the final
result is `none` when the accumulated term list is empty. -/
def runPlan (master : List Course) (conc : MMap) (limits : TermType → Nat) :
    Nat → PlanState → Option (Option (List Term))
  | fuel, s =>
    if s.processed.length < master.length then
      match fuel with
      | 0 => none
      | fuel' + 1 =>
        match passOnce master conc limits s with
        | none => none
        | some s' => runPlan master conc limits fuel' s'
    else some (if s.terms.isEmpty then none else some s.terms)

/-- The initial planner state built at the top of `get_terms`. -/
def initPlan (st : Courses) : PlanState :=
  { fall := st.getTermCoursesFor .Fall
    winter := st.getTermCoursesFor .Winter
    spring := st.getTermCoursesFor .Spring
    summer := st.getTermCoursesFor .Summer
    prereqs := st.prerequisites
    processed := []
    terms := []
    cur := .Fall }

/-- `Courses::get_terms`. -/
def Courses.getTerms (st : Courses) (limits : TermType → Nat) (fuel : Nat) :
    Option (Option (List Term)) :=
  runPlan st.master st.concurrencies limits fuel (initPlan st)

/-- Undirected reachability in the concurrency relation, as generated by the
directed value-vector edges (for a symmetric relation this is membership in
the same concurrency group). -/
inductive ReachC (m : MMap) : CourseName → CourseName → Prop
  | refl (a : CourseName) : ReachC m a a
  | tail {a b c : CourseName} : ReachC m a b → c ∈ m.vecOf b → ReachC m a c

/-- Decidable statement of the symmetry invariant of the concurrency
relation: every recorded edge has its reverse recorded. -/
def SymOn (m : MMap) : Bool :=
  m.all (fun e => e.2.all (fun v => decide (e.1 ∈ m.vecOf v)))

/-- What one `gcwm` call guarantees: the seen set only grows, the course gets
seen, every newly seen name is reachable from the course, the neighbourhood of
every newly seen name lands in both the final seen set and the found set, and
every found name lies in the neighbourhood of some newly seen name. -/
def GSpec (m : MMap) (c : CourseName) (seen f s' : List CourseName) : Prop :=
  (∀ x ∈ seen, x ∈ s') ∧ c ∈ s' ∧
  (∀ x ∈ s', x ∉ seen → ReachC m c x) ∧
  (∀ x ∈ s', x ∉ seen → ∀ y ∈ m.vecOf x, y ∈ s' ∧ y ∈ f) ∧
  (∀ y ∈ f, ∃ x, x ∈ s' ∧ x ∉ seen ∧ y ∈ m.vecOf x)

/-- What one propagation call guarantees: existing prerequisite edges are
kept, the seen set only grows, the course ends up seen, and whenever every
initially seen name already carries the new edge so does every finally seen
name. -/
def ASpec (dep course : CourseName) (pm : MMap) (seen : List CourseName)
    (pm' : MMap) (seen' : List CourseName) : Prop :=
  (∀ k x, x ∈ pm.vecOf k → x ∈ pm'.vecOf k) ∧
  (∀ x ∈ seen, x ∈ seen') ∧ course ∈ seen' ∧
  ((∀ x ∈ seen, dep ∈ pm.vecOf x) → ∀ x ∈ seen', dep ∈ pm'.vecOf x)

/-- A planned term is closed under the concurrency relation: together with
any assigned course it contains that course's whole concurrency group. -/
def TermClosed (conc : MMap) (t : Term) : Prop :=
  ∀ x ∈ termNames t, ∀ y, ReachC conc x y → y ∈ termNames t

/-- Uniform per-term capacity of ten units, used by the concrete examples. -/
def capTen : TermType → Nat := fun _ => 10

/-- Catalog with a single three-credit course. -/
def exCap : Courses := ⟨[Course.new "A" 3], [], []⟩

/-- The term planned for `exCap`. -/
def exCapT : Term := ⟨.Fall, [("A", 3)], 3, 10⟩

/-- Catalog with one two-member concurrency group (symmetric edges). -/
def exGrp : Courses := ⟨[Course.new "A" 2, Course.new "B" 3], [], [("A", ["B"]), ("B", ["A"])]⟩

/-- The term planned for `exGrp`: the whole group lands together. -/
def exGrpT : Term := ⟨.Fall, [("B", 3), ("A", 2)], 5, 10⟩

/-- Catalog built by API calls only: `p` requires `q`, `y` requires `p`
(which propagates nothing yet), `x` made concurrent with `y` (which copies
`p` onto `x`), and that copy removed again, leaving `x` keyed with an empty
prerequisite vector. -/
def exOrd : Option Courses := do
  let s0 := ((((Courses.empty.addCourse (Course.new "x" 1)).addCourse
      (Course.new "y" 1)).addCourse (Course.new "p" 1)).addCourse (Course.new "q" 1))
  let s1 ← s0.addPrerequisite "p" "q"
  let s2 ← s1.addPrerequisite "y" "p"
  let s3 ← s2.addConcurrency "x" "y"
  pure (s3.removePrerequisite "x" "p").2

/-- First planned term of `exOrd`. -/
def exOrdT0 : Term := ⟨.Fall, [("q", 1)], 1, 10⟩

/-- Second planned term of `exOrd`: `y` is pulled in through `x`'s
concurrency closure while its prerequisite `p` lands in the same term. -/
def exOrdT1 : Term := ⟨.Winter, [("y", 1), ("x", 1), ("p", 1)], 3, 10⟩

/-- Catalog with an ordinary prerequisite edge and no concurrency. -/
def exOrdW : Courses := ⟨[Course.new "A" 4, Course.new "B" 4], [("A", ["B"])], []⟩

/-- First planned term of `exOrdW`. -/
def exOrdWT0 : Term := ⟨.Fall, [("B", 4)], 4, 4⟩

/-- Second planned term of `exOrdW`. -/
def exOrdWT1 : Term := ⟨.Winter, [("A", 4)], 4, 4⟩

/-- Catalog where `a` has prerequisite `p1` and `b` has prerequisite `p2`. -/
def exMrg : Courses :=
  ⟨[Course.new "a" 1, Course.new "b" 1], [("a", ["p1"]), ("b", ["p2"])], []⟩

/-- The state after `exMrg.addConcurrency "a" "b"`. -/
def exMrgR : Courses :=
  ⟨[Course.new "a" 1, Course.new "b" 1],
    [("a", ["p1", "p2"]), ("b", ["p2", "p1"])], [("a", ["b"]), ("b", ["a"])]⟩

/-- Catalog where `a` and `b` form a concurrency group without prerequisites. -/
def exProp : Courses :=
  ⟨[Course.new "a" 1, Course.new "b" 1], [], [("a", ["b"]), ("b", ["a"])]⟩

/-- The state after `exProp.addPrerequisite "a" "p"`: both group members
carry the new edge. -/
def exPropR : Courses :=
  ⟨[Course.new "a" 1, Course.new "b" 1], [("a", ["p"]), ("b", ["p"])],
    [("a", ["b"]), ("b", ["a"])]⟩

/-- The state after `Courses.empty.addConcurrency "A" "B"`. -/
def exSymR : Courses := ⟨[], [], [("A", ["B"]), ("B", ["A"])]⟩

/-- Catalog with one course available only in Winter. -/
def exWin : Courses := ⟨[(Course.new "w" 4).availableBy .Winter], [], []⟩

/-- The single term `exWin` plans, in the second pass. -/
def exWinT : Term := ⟨.Winter, [("w", 4)], 4, 10⟩

/-- Concurrency relation with two disjoint symmetric pairs: `A`-`C` and
`B`-`D`.  Both `A` and `B` are keys, but no `A`-`B` edge exists. -/
def exRC : Courses := ⟨[], [], [("A", ["C"]), ("C", ["A"]), ("B", ["D"]), ("D", ["B"])]⟩

/-- Course whose availability flag is set exactly for Winter. -/
def exAvail : Course := (Course.new "Z" 3).availableBy .Winter

/-! MARKER-MORE-DEFS -/

/-! ### Basic lemmas about the set and multimap embeddings -/

theorem mem_insSet {l : List CourseName} {x y : CourseName} :
    x ∈ insSet l y ↔ x ∈ l ∨ x = y := by
  unfold insSet
  by_cases h : y ∈ l
  · simp only [if_pos h]
    constructor
    · exact Or.inl
    · rintro (hx | rfl) <;> assumption
  · simp [if_neg h]

theorem mem_insSet_self {l : List CourseName} {y : CourseName} : y ∈ insSet l y :=
  mem_insSet.mpr (Or.inr rfl)

theorem mem_insSet_of_mem {l : List CourseName} {x y : CourseName} (h : x ∈ l) :
    x ∈ insSet l y :=
  mem_insSet.mpr (Or.inl h)

theorem mem_unionS {a b : List CourseName} {x : CourseName} :
    x ∈ unionS a b ↔ x ∈ a ∨ x ∈ b := by
  unfold unionS
  by_cases h : x ∈ a
  · simp [h]
  · simp [h, List.mem_filter]

theorem MMap.getVec_mem {m : MMap} {k : CourseName} {v : List CourseName}
    (h : m.getVec k = some v) : (k, v) ∈ m := by
  induction m with
  | nil => simp [MMap.getVec] at h
  | cons e rest ih =>
    by_cases he : e.1 = k
    · simp only [MMap.getVec, if_pos he] at h
      cases h
      obtain ⟨k1, v1⟩ := e
      cases he
      exact List.mem_cons_self _ _
    · simp only [MMap.getVec, if_neg he] at h
      exact List.mem_cons_of_mem _ (ih h)

theorem MMap.getVec_eq_none_iff {m : MMap} {k : CourseName} :
    m.getVec k = none ↔ ∀ e ∈ m, e.1 ≠ k := by
  induction m with
  | nil => simp [MMap.getVec]
  | cons e rest ih =>
    by_cases he : e.1 = k
    · simp [MMap.getVec, he]
    · simp [MMap.getVec, he, ih]

theorem MMap.mem_vecOf {m : MMap} {k x : CourseName} (h : x ∈ m.vecOf k) :
    ∃ v, m.getVec k = some v ∧ x ∈ v := by
  unfold MMap.vecOf at h
  cases hg : m.getVec k with
  | none => rw [hg] at h; simp at h
  | some v => rw [hg] at h; exact ⟨v, rfl, h⟩

theorem MMap.containsKey_of_mem_vecOf {m : MMap} {k x : CourseName} (h : x ∈ m.vecOf k) :
    m.containsKey k = true := by
  obtain ⟨v, hv, -⟩ := MMap.mem_vecOf h
  simp [MMap.containsKey, hv]

theorem MMap.vecOf_eq_nil_of_not_containsKey {m : MMap} {k : CourseName}
    (h : ¬ m.containsKey k = true) : m.vecOf k = [] := by
  unfold MMap.containsKey at h
  cases hg : m.getVec k with
  | none => simp [MMap.vecOf, hg]
  | some v => rw [hg] at h; simp at h

theorem MMap.mem_valsOf_of_entry {m : MMap} {e : CourseName × List CourseName}
    (he : e ∈ m) {x : CourseName} (hx : x ∈ e.2) : x ∈ m.valsOf := by
  induction m with
  | nil => cases he
  | cons e' rest ih =>
    rcases List.mem_cons.mp he with h | h
    · subst h
      exact List.mem_append_left _ hx
    · exact List.mem_append_right _ (ih h)

theorem MMap.mem_valsOf_of_vecOf {m : MMap} {k x : CourseName} (h : x ∈ m.vecOf k) :
    x ∈ m.valsOf := by
  obtain ⟨v, hv, hx⟩ := MMap.mem_vecOf h
  exact MMap.mem_valsOf_of_entry (MMap.getVec_mem hv) hx

theorem MMap.vecOf_insertMM_self (m : MMap) (k v : CourseName) :
    (m.insertMM k v).vecOf k = m.vecOf k ++ [v] := by
  induction m with
  | nil => simp [MMap.insertMM, MMap.vecOf, MMap.getVec]
  | cons e rest ih =>
    by_cases he : e.1 = k
    · simp [MMap.insertMM, he, MMap.vecOf, MMap.getVec]
    · unfold MMap.vecOf at ih
      simp only [MMap.insertMM, if_neg he]
      unfold MMap.vecOf
      simp only [MMap.getVec, if_neg he]
      exact ih

theorem MMap.vecOf_insertMM_ne (m : MMap) {k k' : CourseName} (v : CourseName)
    (h : k' ≠ k) : (m.insertMM k v).vecOf k' = m.vecOf k' := by
  induction m with
  | nil =>
    unfold MMap.vecOf
    simp only [MMap.insertMM, MMap.getVec]
    rw [if_neg (fun hh => h hh.symm)]
  | cons e rest ih =>
    by_cases he : e.1 = k
    · subst he
      unfold MMap.vecOf
      simp only [MMap.insertMM, if_pos rfl, MMap.getVec]
      rw [if_neg (fun hh => h hh.symm), if_neg (fun hh => h hh.symm)]
    · unfold MMap.vecOf at ih
      simp only [MMap.insertMM, if_neg he]
      unfold MMap.vecOf
      simp only [MMap.getVec]
      by_cases he' : e.1 = k'
      · simp [he']
      · simp only [if_neg he']
        exact ih

theorem MMap.mem_vecOf_insertMM {m : MMap} {k k' x v : CourseName}
    (h : x ∈ m.vecOf k') : x ∈ (m.insertMM k v).vecOf k' := by
  by_cases hk : k' = k
  · subst hk
    rw [MMap.vecOf_insertMM_self]
    exact List.mem_append_left _ h
  · rwa [MMap.vecOf_insertMM_ne m v hk]

theorem MMap.self_mem_vecOf_insertMM (m : MMap) (k v : CourseName) :
    v ∈ (m.insertMM k v).vecOf k := by
  rw [MMap.vecOf_insertMM_self]
  exact List.mem_append_right _ (List.mem_singleton.mpr rfl)

/-! ### Symmetry and reachability in the concurrency relation -/

theorem symOn_mem {m : MMap} (hs : SymOn m = true) {a b : CourseName}
    (h : a ∈ m.vecOf b) : b ∈ m.vecOf a := by
  obtain ⟨v, hv, ha⟩ := MMap.mem_vecOf h
  have hmem := MMap.getVec_mem hv
  unfold SymOn at hs
  rw [List.all_eq_true] at hs
  have := hs _ hmem
  rw [List.all_eq_true] at this
  have := this _ ha
  simpa using this

theorem ReachC.trans {m : MMap} {a b c : CourseName}
    (h1 : ReachC m a b) (h2 : ReachC m b c) : ReachC m a c := by
  induction h2 with
  | refl => exact h1
  | tail _ hmem ih => exact ReachC.tail ih hmem

theorem reach_isolated {m : MMap} {n y : CourseName} (hn : m.vecOf n = [])
    (h : ReachC m n y) : y = n := by
  induction h with
  | refl => rfl
  | tail _ hmem ih =>
    subst ih
    rw [hn] at hmem
    cases hmem

/-! ### Specification of the concurrency-closure DFS -/

theorem gcwmLoop_found_mono
    (rec : CourseName → List CourseName → Option (List CourseName × List CourseName)) :
    ∀ (l found seen F S' : List CourseName),
      gcwmLoop rec l found seen = some (F, S') → ∀ y ∈ found, y ∈ F := by
  intro l
  induction l with
  | nil =>
    intro found seen F S' h y hy
    simp only [gcwmLoop] at h
    cases h
    exact hy
  | cons v rest ih =>
    intro found seen F S' h y hy
    simp only [gcwmLoop] at h
    by_cases hv : v ∈ seen
    · rw [if_pos hv] at h
      exact ih _ _ _ _ h y hy
    · rw [if_neg hv] at h
      cases hrec : rec v seen with
      | none => rw [hrec] at h; cases h
      | some p =>
        rw [hrec] at h
        exact ih _ _ _ _ h y (mem_unionS.mpr (Or.inl hy))

theorem gcwmLoop_spec (m : MMap)
    (rec : CourseName → List CourseName → Option (List CourseName × List CourseName))
    (hrec : ∀ v seen f s', v ∉ seen → rec v seen = some (f, s') → GSpec m v seen f s') :
    ∀ (l found seen F S' : List CourseName),
      gcwmLoop rec l found seen = some (F, S') →
        (∀ x ∈ seen, x ∈ S') ∧ (∀ v ∈ l, v ∈ S') ∧
        (∀ x ∈ S', x ∉ seen → ∃ v ∈ l, ReachC m v x) ∧
        (∀ x ∈ S', x ∉ seen → ∀ y ∈ m.vecOf x, y ∈ S' ∧ y ∈ F) ∧
        (∀ y ∈ found, y ∈ F) ∧
        (∀ y ∈ F, y ∈ found ∨ ∃ x, x ∈ S' ∧ x ∉ seen ∧ y ∈ m.vecOf x) := by
  intro l
  induction l with
  | nil =>
    intro found seen F S' h
    simp only [gcwmLoop] at h
    obtain ⟨rfl, rfl⟩ : found = F ∧ seen = S' := by
      injection h with h1
      injection h1 with h2 h3
      exact ⟨h2, h3⟩
    refine ⟨fun x hx => hx, by simp, ?_, ?_, fun y hy => hy, fun y hy => Or.inl hy⟩
    · intro x hx hnx
      exact absurd hx hnx
    · intro x hx hnx
      exact absurd hx hnx
  | cons v rest ih =>
    intro found seen F S' h
    simp only [gcwmLoop] at h
    by_cases hv : v ∈ seen
    · rw [if_pos hv] at h
      obtain ⟨h1, h2, h3, h4, h5, h6⟩ := ih _ _ _ _ h
      refine ⟨h1, ?_, ?_, h4, h5, ?_⟩
      · intro w hw
        rcases List.mem_cons.mp hw with rfl | hw
        · exact h1 _ hv
        · exact h2 _ hw
      · intro x hx hnx
        obtain ⟨v', hv', hr⟩ := h3 x hx hnx
        exact ⟨v', List.mem_cons_of_mem _ hv', hr⟩
      · intro y hy
        rcases h6 y hy with h | ⟨x, hx1, hx2, hx3⟩
        · exact Or.inl h
        · exact Or.inr ⟨x, hx1, hx2, hx3⟩
    · rw [if_neg hv] at h
      cases hrec1 : rec v seen with
      | none => rw [hrec1] at h; cases h
      | some p =>
        obtain ⟨fv, s1⟩ := p
        rw [hrec1] at h
        obtain ⟨g1, g2, g3, g4, g5⟩ := hrec v seen fv s1 hv hrec1
        obtain ⟨h1, h2, h3, h4, h5, h6⟩ := ih _ _ _ _ h
        refine ⟨?_, ?_, ?_, ?_, ?_, ?_⟩
        · intro x hx
          exact h1 _ (g1 _ hx)
        · intro w hw
          rcases List.mem_cons.mp hw with rfl | hw
          · exact h1 _ g2
          · exact h2 _ hw
        · intro x hx hnx
          by_cases hx1 : x ∈ s1
          · exact ⟨v, List.mem_cons_self _ _, g3 x hx1 hnx⟩
          · obtain ⟨v', hv', hr⟩ := h3 x hx hx1
            exact ⟨v', List.mem_cons_of_mem _ hv', hr⟩
        · intro x hx hnx y hy
          by_cases hx1 : x ∈ s1
          · obtain ⟨hy1, hy2⟩ := g4 x hx1 hnx y hy
            exact ⟨h1 _ hy1, h5 _ (mem_unionS.mpr (Or.inr hy2))⟩
          · exact h4 x hx hx1 y hy
        · intro y hy
          exact h5 _ (mem_unionS.mpr (Or.inl hy))
        · intro y hy
          rcases h6 y hy with hu | ⟨x, hx1, hx2, hx3⟩
          · rcases mem_unionS.mp hu with hf | hfv
            · exact Or.inl hf
            · obtain ⟨x, hx1, hx2, hx3⟩ := g5 y hfv
              exact Or.inr ⟨x, h1 _ hx1, hx2, hx3⟩
          · exact Or.inr ⟨x, hx1, fun hxs => hx2 (g1 _ hxs), hx3⟩

theorem gcwm_spec (m : MMap) :
    ∀ (fuel : Nat) (c : CourseName) (seen f s' : List CourseName), c ∉ seen →
      gcwm m fuel c seen = some (f, s') → GSpec m c seen f s' := by
  intro fuel
  induction fuel with
  | zero =>
    intro c seen f s' _ h
    simp [gcwm] at h
  | succ n ih =>
    intro c seen f s' hc h
    simp only [gcwm] at h
    cases hv : m.getVec c with
    | none =>
      rw [hv] at h
      obtain ⟨rfl, rfl⟩ : ([] : List CourseName) = f ∧ insSet seen c = s' := by
        injection h with h1
        injection h1 with h2 h3
        exact ⟨h2, h3⟩
      refine ⟨fun x hx => mem_insSet_of_mem hx, mem_insSet_self, ?_, ?_, by simp⟩
      · intro x hx hnx
        rcases mem_insSet.mp hx with h | rfl
        · exact absurd h hnx
        · exact ReachC.refl _
      · intro x hx hnx y hy
        rcases mem_insSet.mp hx with h | rfl
        · exact absurd h hnx
        · rw [MMap.vecOf, hv] at hy
          cases hy
    | some vs =>
      rw [hv] at h
      have hvec : m.vecOf c = vs := by rw [MMap.vecOf, hv]; rfl
      obtain ⟨h1, h2, h3, h4, h5, h6⟩ :=
        gcwmLoop_spec m (gcwm m n) (fun v s fv sv hvn hr => ih v s fv sv hvn hr)
          vs vs.dedup (insSet seen c) f s' h
      refine ⟨?_, ?_, ?_, ?_, ?_⟩
      · intro x hx
        exact h1 _ (mem_insSet_of_mem hx)
      · exact h1 _ mem_insSet_self
      · intro x hx hnx
        by_cases hxc : x = c
        · subst hxc; exact ReachC.refl _
        · have hxn : x ∉ insSet seen c := by
            intro hmem
            rcases mem_insSet.mp hmem with hm | hm
            · exact hnx hm
            · exact hxc hm
          obtain ⟨v, hvm, hr⟩ := h3 x hx hxn
          have hcv : ReachC m c v := ReachC.tail (ReachC.refl c) (hvec ▸ hvm)
          exact ReachC.trans hcv hr
      · intro x hx hnx y hy
        by_cases hxc : x = c
        · subst hxc
          rw [hvec] at hy
          exact ⟨h2 _ hy, h5 _ (List.mem_dedup.mpr hy)⟩
        · have hxn : x ∉ insSet seen c := by
            intro hmem
            rcases mem_insSet.mp hmem with hm | hm
            · exact hnx hm
            · exact hxc hm
          exact h4 x hx hxn y hy
      · intro y hy
        rcases h6 y hy with hd | ⟨x, hx1, hx2, hx3⟩
        · exact ⟨c, h1 _ mem_insSet_self, hc, hvec ▸ List.mem_dedup.mp hd⟩
        · refine ⟨x, hx1, ?_, hx3⟩
          intro hxs
          exact hx2 (mem_insSet_of_mem hxs)

/-! ### Specification of `get_concurrents_for` -/

theorem concUnits_eq_sum {master : List Course} :
    ∀ {S : List CourseName} {u : Nat}, concUnits master S = some u →
      u = (S.map (fun n => ((lookupCourse master n).map Course.credits).getD 0)).sum := by
  intro S
  induction S with
  | nil =>
    intro u h
    simp only [concUnits] at h
    cases h
    simp
  | cons n rest ih =>
    intro u h
    simp only [concUnits] at h
    cases hl : lookupCourse master n with
    | none => rw [hl] at h; cases h
    | some c =>
      rw [hl] at h
      cases hr : concUnits master rest with
      | none => rw [hr] at h; cases h
      | some s =>
        rw [hr] at h
        cases h
        simp [hl, ih hr]

theorem getConcurrentsFor_none_vecOf {conc : MMap} {master : List Course} {c : CourseName}
    (h : getConcurrentsFor conc master c = some none) : conc.vecOf c = [] := by
  unfold getConcurrentsFor at h
  cases hg : gcwm conc (conc.valsOf.length + 1) c [] with
  | none => rw [hg] at h; cases h
  | some p =>
    obtain ⟨found, s2⟩ := p
    rw [hg] at h
    simp only at h
    by_cases hemp : found.isEmpty
    · have hfound : found = [] := by
        cases found
        · rfl
        · simp [List.isEmpty] at hemp
      subst hfound
      simp only [gcwm] at hg
      cases hv : conc.getVec c with
      | none => simp [MMap.vecOf, hv]
      | some vs =>
        rw [hv] at hg
        have := gcwmLoop_found_mono (gcwm conc conc.valsOf.length) vs vs.dedup
          (insSet [] c) [] s2 hg
        have hvs : vs = [] := by
          cases vs with
          | nil => rfl
          | cons a rest =>
            have : a ∈ ([] : List CourseName) := this a (List.mem_dedup.mpr (List.mem_cons_self _ _))
            cases this
        simp [MMap.vecOf, hv, hvs]
    · rw [if_neg hemp] at h
      cases hcu : concUnits master found with
      | none => rw [hcu] at h; cases h
      | some u => rw [hcu] at h; cases h

theorem getConcurrentsFor_some_spec {conc : MMap} {master : List Course} {c : CourseName}
    {S : List CourseName} {u : Nat}
    (h : getConcurrentsFor conc master c = some (some (S, u))) :
    S ≠ [] ∧ concUnits master S = some u ∧ (∀ y ∈ S, y ∈ conc.valsOf) ∧
      (∀ y ∈ S, ReachC conc c y) ∧
      (SymOn conc = true → ∀ y, ReachC conc c y → y ∈ S) := by
  unfold getConcurrentsFor at h
  cases hg : gcwm conc (conc.valsOf.length + 1) c [] with
  | none => rw [hg] at h; cases h
  | some p =>
    obtain ⟨found, s2⟩ := p
    rw [hg] at h
    simp only at h
    by_cases hemp : found.isEmpty
    · rw [if_pos hemp] at h; cases h
    · rw [if_neg hemp] at h
      cases hcu : concUnits master found with
      | none => rw [hcu] at h; cases h
      | some u' =>
        rw [hcu] at h
        obtain ⟨rfl, rfl⟩ : S = found ∧ u = u' := by
          injection h with h1
          injection h1 with h2
          injection h2 with h3 h4
          exact ⟨h3.symm, h4.symm⟩
        obtain ⟨g1, g2, g3, g4, g5⟩ := gcwm_spec conc _ c [] S s2 (by simp) hg
        have hreach : ∀ y ∈ S, ReachC conc c y := by
          intro y hy
          obtain ⟨x, hx1, -, hx3⟩ := g5 y hy
          exact ReachC.tail (g3 x hx1 (by simp)) hx3
        have hSne : S ≠ [] := by
          intro hS
          subst hS
          simp [List.isEmpty] at hemp
        refine ⟨hSne, hcu, ?_, hreach, ?_⟩
        · intro y hy
          obtain ⟨x, -, -, hx3⟩ := g5 y hy
          exact MMap.mem_valsOf_of_vecOf hx3
        · intro hsym y hry
          have hmain : ∀ z, ReachC conc c z → z ∈ s2 ∧ (z = c ∨ z ∈ S) := by
            intro z hz
            induction hz with
            | refl => exact ⟨g2, Or.inl rfl⟩
            | tail hz hmem ihz =>
              obtain ⟨hb, -⟩ := ihz
              obtain ⟨h1, h2⟩ := g4 _ hb (by simp) _ hmem
              exact ⟨h1, Or.inr h2⟩
          rcases (hmain y hry).2 with rfl | hyS
          · -- show the start course itself lies in the found set
            obtain ⟨y0, hy0⟩ : ∃ y0, y0 ∈ S := by
              cases S with
              | nil => exact absurd rfl hSne
              | cons a rest => exact ⟨a, List.mem_cons_self _ _⟩
            obtain ⟨x0, hx0s, -, hx0v⟩ := g5 y0 hy0
            -- x0 is newly seen, so its whole neighbourhood is in the seen set;
            -- we need an edge out of the start course
            have hvcne : conc.vecOf y ≠ [] := by
              intro hnil
              -- every found element comes from the neighbourhood of a seen
              -- element reachable from y; with an empty start neighbourhood
              -- reachability collapses
              have : x0 = y := reach_isolated hnil (g3 x0 hx0s (by simp))
              subst this
              rw [hnil] at hx0v
              cases hx0v
            obtain ⟨v1, hv1⟩ : ∃ v1, v1 ∈ conc.vecOf y := by
              cases hvc : conc.vecOf y with
              | nil => exact absurd hvc hvcne
              | cons a rest =>
                refine ⟨a, ?_⟩
                exact List.mem_cons_self _ _
            have hv1s : v1 ∈ s2 ∧ v1 ∈ S := g4 _ g2 (by simp) _ hv1
            have hcv1 : y ∈ conc.vecOf v1 := symOn_mem hsym hv1
            exact (g4 _ hv1s.1 (by simp) _ hcv1).2
          · exact hyS

/-! ### Specification of prerequisite propagation and merging -/

theorem appLoop_spec (dep : CourseName)
    (rec : CourseName → MMap → List CourseName → Option (MMap × List CourseName))
    (hrec : ∀ v pm seen pm' seen', rec v pm seen = some (pm', seen') →
      ASpec dep v pm seen pm' seen') :
    ∀ (l : List CourseName) (pm : MMap) (seen : List CourseName) (pm' : MMap)
      (seen' : List CourseName), appLoop rec l pm seen = some (pm', seen') →
      (∀ k x, x ∈ pm.vecOf k → x ∈ pm'.vecOf k) ∧ (∀ x ∈ seen, x ∈ seen') ∧
      (∀ v ∈ l, v ∈ seen') ∧
      ((∀ x ∈ seen, dep ∈ pm.vecOf x) → ∀ x ∈ seen', dep ∈ pm'.vecOf x) := by
  intro l
  induction l with
  | nil =>
    intro pm seen pm' seen' h
    simp only [appLoop] at h
    obtain ⟨rfl, rfl⟩ : pm = pm' ∧ seen = seen' := by
      injection h with h1
      injection h1 with h2 h3
      exact ⟨h2, h3⟩
    exact ⟨fun k x hx => hx, fun x hx => hx, by simp, fun hall x hx => hall x hx⟩
  | cons c rest ih =>
    intro pm seen pm' seen' h
    simp only [appLoop] at h
    cases hr : rec c pm seen with
    | none => rw [hr] at h; cases h
    | some p =>
      obtain ⟨pm1, s1⟩ := p
      rw [hr] at h
      obtain ⟨a1, a2, a3, a4⟩ := hrec c pm seen pm1 s1 hr
      obtain ⟨i1, i2, i3, i4⟩ := ih pm1 s1 pm' seen' h
      refine ⟨fun k x hx => i1 k x (a1 k x hx), fun x hx => i2 x (a2 x hx), ?_, ?_⟩
      · intro v hv
        rcases List.mem_cons.mp hv with rfl | hv
        · exact i2 _ a3
        · exact i3 _ hv
      · intro hall
        exact i4 (a4 hall)

theorem addPrereqToConcurrent_succ (conc : MMap) (master : List Course) (dep : CourseName)
    (n : Nat) (course : CourseName) (pm : MMap) (seen : List CourseName) :
    addPrereqToConcurrent conc master dep (n + 1) course pm seen =
      (if course ∈ seen then some (pm, seen)
       else
         match getConcurrentsFor conc master course with
         | none => none
         | some none => some (pm.insertMM course dep, insSet seen course)
         | some (some (s, _)) =>
           appLoop (addPrereqToConcurrent conc master dep n) s
             (pm.insertMM course dep) (insSet seen course)) := rfl

theorem addPrereqToConcurrent_spec (conc : MMap) (master : List Course) (dep : CourseName) :
    ∀ (fuel : Nat) (course : CourseName) (pm : MMap) (seen : List CourseName)
      (pm' : MMap) (seen' : List CourseName),
      addPrereqToConcurrent conc master dep fuel course pm seen = some (pm', seen') →
      ASpec dep course pm seen pm' seen' := by
  intro fuel
  induction fuel with
  | zero =>
    intro course pm seen pm' seen' h
    simp [addPrereqToConcurrent] at h
  | succ n ih =>
    intro course pm seen pm' seen' h
    simp only [addPrereqToConcurrent] at h
    by_cases hc : course ∈ seen
    · rw [if_pos hc] at h
      obtain ⟨rfl, rfl⟩ : pm = pm' ∧ seen = seen' := by
        injection h with h1
        injection h1 with h2 h3
        exact ⟨h2, h3⟩
      exact ⟨fun k x hx => hx, fun x hx => hx, hc, fun hall x hx => hall x hx⟩
    · rw [if_neg hc] at h
      cases hg : getConcurrentsFor conc master course with
      | none => rw [hg] at h; cases h
      | some o =>
        rw [hg] at h
        cases o with
        | none =>
          simp only at h
          obtain ⟨rfl, rfl⟩ : pm.insertMM course dep = pm' ∧ insSet seen course = seen' := by
            injection h with h1
            injection h1 with h2 h3
            exact ⟨h2, h3⟩
          refine ⟨fun k x hx => MMap.mem_vecOf_insertMM hx,
            fun x hx => mem_insSet_of_mem hx, mem_insSet_self, ?_⟩
          intro hall x hx
          rcases mem_insSet.mp hx with hx | rfl
          · exact MMap.mem_vecOf_insertMM (hall x hx)
          · exact MMap.self_mem_vecOf_insertMM pm x dep
        | some p =>
          obtain ⟨S, u⟩ := p
          simp only at h
          obtain ⟨l1, l2, l3, l4⟩ :=
            appLoop_spec dep (addPrereqToConcurrent conc master dep n)
              (fun v pmx seenx pmy seeny hr => ih v pmx seenx pmy seeny hr)
              S (pm.insertMM course dep) (insSet seen course) pm' seen' h
          refine ⟨fun k x hx => l1 k x (MMap.mem_vecOf_insertMM hx),
            fun x hx => l2 x (mem_insSet_of_mem hx), l2 _ mem_insSet_self, ?_⟩
          intro hall
          refine l4 ?_
          intro x hx
          rcases mem_insSet.mp hx with hx | rfl
          · exact MMap.mem_vecOf_insertMM (hall x hx)
          · exact MMap.self_mem_vecOf_insertMM pm x dep

theorem addPrerequisite_spec {st : Courses} {course dep : CourseName} {st' : Courses}
    (h : st.addPrerequisite course dep = some st') :
    st'.master = st.master ∧ st'.concurrencies = st.concurrencies ∧
      (∀ k x, x ∈ st.prerequisites.vecOf k → x ∈ st'.prerequisites.vecOf k) ∧
      dep ∈ st'.prerequisites.vecOf course := by
  unfold Courses.addPrerequisite at h
  by_cases hk : st.concurrencies.containsKey course
  · rw [if_pos hk] at h
    cases ha : addPrereqToConcurrent st.concurrencies st.master dep
        (st.concurrencies.valsOf.length + 2) course st.prerequisites [] with
    | none => rw [ha] at h; cases h
    | some p =>
      obtain ⟨pm, s⟩ := p
      rw [ha] at h
      obtain rfl : ({ st with prerequisites := pm } : Courses) = st' := by
        injection h
      obtain ⟨a1, a2, a3, a4⟩ := addPrereqToConcurrent_spec st.concurrencies st.master dep
        _ course st.prerequisites [] pm s ha
      exact ⟨rfl, rfl, a1, a4 (by simp) course a3⟩
  · rw [if_neg hk] at h
    obtain rfl : ({ st with prerequisites := st.prerequisites.insertMM course dep } : Courses)
        = st' := by
      injection h
    exact ⟨rfl, rfl, fun k x hx => MMap.mem_vecOf_insertMM hx,
      MMap.self_mem_vecOf_insertMM _ _ _⟩

theorem addPrerequisite_group {st : Courses} {a p b : CourseName} {st' : Courses}
    (hsym : SymOn st.concurrencies = true) (hreach : ReachC st.concurrencies a b)
    (h : st.addPrerequisite a p = some st') :
    p ∈ st'.prerequisites.vecOf b := by
  unfold Courses.addPrerequisite at h
  by_cases hk : st.concurrencies.containsKey a
  · rw [if_pos hk] at h
    cases ha : addPrereqToConcurrent st.concurrencies st.master p
        (st.concurrencies.valsOf.length + 2) a st.prerequisites [] with
    | none => rw [ha] at h; cases h
    | some q =>
      obtain ⟨pm, s⟩ := q
      rw [ha] at h
      obtain rfl : ({ st with prerequisites := pm } : Courses) = st' := by
        injection h
      have hfuel : st.concurrencies.valsOf.length + 2 =
          (st.concurrencies.valsOf.length + 1) + 1 := rfl
      rw [hfuel, addPrereqToConcurrent_succ] at ha
      rw [if_neg (by simp : ¬ a ∈ ([] : List CourseName))] at ha
      cases hg : getConcurrentsFor st.concurrencies st.master a with
      | none => rw [hg] at ha; cases ha
      | some o =>
        rw [hg] at ha
        cases o with
        | none =>
          have hvec : st.concurrencies.vecOf a = [] := getConcurrentsFor_none_vecOf hg
          have hb : b = a := reach_isolated hvec hreach
          subst hb
          simp only at ha
          obtain ⟨rfl, -⟩ : st.prerequisites.insertMM b p = pm ∧ insSet [] b = s := by
            injection ha with h1
            injection h1 with h2 h3
            exact ⟨h2, h3⟩
          exact MMap.self_mem_vecOf_insertMM _ _ _
        | some q2 =>
          obtain ⟨S, u⟩ := q2
          simp only at ha
          obtain ⟨-, -, -, -, hcomp⟩ := getConcurrentsFor_some_spec hg
          have hbS : b ∈ S := hcomp hsym b hreach
          obtain ⟨l1, l2, l3, l4⟩ :=
            appLoop_spec p (addPrereqToConcurrent st.concurrencies st.master p
                (st.concurrencies.valsOf.length + 1))
              (fun v pmx seenx pmy seeny hr =>
                addPrereqToConcurrent_spec st.concurrencies st.master p _ v pmx seenx pmy seeny hr)
              S (st.prerequisites.insertMM a p) (insSet [] a) pm s ha
          refine l4 ?_ b (l3 b hbS)
          intro x hx
          rcases mem_insSet.mp hx with hx | rfl
          · cases hx
          · exact MMap.self_mem_vecOf_insertMM _ _ _
  · rw [if_neg hk] at h
    obtain rfl : ({ st with prerequisites := st.prerequisites.insertMM a p } : Courses)
        = st' := by
      injection h
    have hvec : st.concurrencies.vecOf a = [] := MMap.vecOf_eq_nil_of_not_containsKey hk
    have hb : b = a := reach_isolated hvec hreach
    subst hb
    exact MMap.self_mem_vecOf_insertMM _ _ _

theorem combineLoop_spec (target : CourseName) :
    ∀ (l : List CourseName) (st st' : Courses), combineLoop target l st = some st' →
      st'.master = st.master ∧ st'.concurrencies = st.concurrencies ∧
      (∀ k x, x ∈ st.prerequisites.vecOf k → x ∈ st'.prerequisites.vecOf k) ∧
      (∀ q ∈ l, q ∈ st'.prerequisites.vecOf target) := by
  intro l
  induction l with
  | nil =>
    intro st st' h
    simp only [combineLoop] at h
    obtain rfl : st = st' := by injection h
    exact ⟨rfl, rfl, fun k x hx => hx, by simp⟩
  | cons q rest ih =>
    intro st st' h
    simp only [combineLoop] at h
    cases ha : st.addPrerequisite target q with
    | none => rw [ha] at h; cases h
    | some st1 =>
      rw [ha] at h
      obtain ⟨a1, a2, a3, a4⟩ := addPrerequisite_spec ha
      obtain ⟨i1, i2, i3, i4⟩ := ih st1 st' h
      refine ⟨i1.trans a1, i2.trans a2, fun k x hx => i3 k x (a3 k x hx), ?_⟩
      intro q' hq'
      rcases List.mem_cons.mp hq' with rfl | hq'
      · exact i3 _ _ a4
      · exact i4 _ hq'

theorem combineConcurrentPrereqs_spec {st : Courses} {a b : CourseName} {mid : Courses}
    (h : st.combineConcurrentPrereqs a b = some mid) :
    mid.master = st.master ∧ mid.concurrencies = st.concurrencies ∧
      (∀ k x, x ∈ st.prerequisites.vecOf k → x ∈ mid.prerequisites.vecOf k) ∧
      (∀ p1, p1 ∈ st.prerequisites.vecOf a → p1 ∈ mid.prerequisites.vecOf b) ∧
      (∀ p2, p2 ∈ st.prerequisites.vecOf b → p2 ∈ mid.prerequisites.vecOf a) := by
  unfold Courses.combineConcurrentPrereqs at h
  dsimp only at h
  cases h1 : combineLoop b
      ((((st.getPrerequisites a).getD []).dedup).filter
        (fun x => decide (x ∉ ((st.getPrerequisites b).getD []).dedup))) st with
  | none => rw [h1] at h; cases h
  | some st1 =>
    rw [h1] at h
    simp only at h
    obtain ⟨c1, c2, c3, c4⟩ := combineLoop_spec _ _ _ _ h1
    obtain ⟨d1, d2, d3, d4⟩ := combineLoop_spec _ _ _ _ h
    have hget : ∀ c : CourseName, (st.getPrerequisites c).getD [] = st.prerequisites.vecOf c := by
      intro c
      rfl
    refine ⟨d1.trans c1, d2.trans c2, fun k x hx => d3 k x (c3 k x hx), ?_, ?_⟩
    · intro p1 hp1
      by_cases hpd : p1 ∈ ((st.getPrerequisites b).getD []).dedup
      · rw [List.mem_dedup, hget] at hpd
        exact d3 _ _ (c3 _ _ hpd)
      · have hmem : p1 ∈ (((st.getPrerequisites a).getD []).dedup).filter
            (fun x => decide (x ∉ ((st.getPrerequisites b).getD []).dedup)) := by
          rw [List.mem_filter]
          refine ⟨?_, by simpa using hpd⟩
          rw [List.mem_dedup, hget]
          exact hp1
        exact d3 _ _ (c4 _ hmem)
    · intro p2 hp2
      by_cases hpc : p2 ∈ ((st.getPrerequisites a).getD []).dedup
      · rw [List.mem_dedup, hget] at hpc
        exact d3 _ _ (c3 _ _ hpc)
      · have hmem : p2 ∈ (((st.getPrerequisites b).getD []).dedup).filter
            (fun x => decide (x ∉ ((st.getPrerequisites a).getD []).dedup)) := by
          rw [List.mem_filter]
          refine ⟨?_, by simpa using hpc⟩
          rw [List.mem_dedup, hget]
          exact hp2
        exact d4 _ hmem

/-! ### Claim theorems about the relation mutators -/

/-- C4: if course `a` has prerequisite `p1` and course `b` has prerequisite
`p2`, then `add_concurrency(a, b)` first reconciles the prerequisite sets —
there is an intermediate state, produced by
`combine_concurrent_prerequisites` and leaving the concurrency relation
untouched, in which both courses already carry `{p1, p2}` — and only then
records the two directed concurrency edges; in the final state both
`get_prerequisites(a)` and `get_prerequisites(b)` still include `{p1, p2}`. -/
theorem addConcurrency_merges_prereqs {st : Courses} {a b p1 p2 : CourseName} {st' : Courses}
    (h1 : p1 ∈ st.prerequisites.vecOf a) (h2 : p2 ∈ st.prerequisites.vecOf b)
    (h : st.addConcurrency a b = some st') :
    ∃ mid, st.combineConcurrentPrereqs a b = some mid ∧
      mid.concurrencies = st.concurrencies ∧
      st' = { mid with concurrencies := (mid.concurrencies.insertMM a b).insertMM b a } ∧
      (p1 ∈ mid.prerequisites.vecOf a ∧ p2 ∈ mid.prerequisites.vecOf a ∧
        p1 ∈ mid.prerequisites.vecOf b ∧ p2 ∈ mid.prerequisites.vecOf b) ∧
      (p1 ∈ st'.prerequisites.vecOf a ∧ p2 ∈ st'.prerequisites.vecOf a ∧
        p1 ∈ st'.prerequisites.vecOf b ∧ p2 ∈ st'.prerequisites.vecOf b) := by
  unfold Courses.addConcurrency at h
  have hca : st.prerequisites.containsKey a = true := MMap.containsKey_of_mem_vecOf h1
  have hcond : (st.prerequisites.containsKey a || st.prerequisites.containsKey b) = true := by
    rw [hca]
    rfl
  rw [if_pos hcond] at h
  cases hm : st.combineConcurrentPrereqs a b with
  | none => rw [hm] at h; cases h
  | some mid =>
    rw [hm] at h
    simp only at h
    obtain rfl :
        ({ mid with concurrencies := (mid.concurrencies.insertMM a b).insertMM b a } : Courses)
          = st' := by
      injection h
    obtain ⟨-, hconc, hmono, hab, hba⟩ := combineConcurrentPrereqs_spec hm
    have m1 : p1 ∈ mid.prerequisites.vecOf a := hmono _ _ h1
    have m2 : p2 ∈ mid.prerequisites.vecOf a := hba _ h2
    have m3 : p1 ∈ mid.prerequisites.vecOf b := hab _ h1
    have m4 : p2 ∈ mid.prerequisites.vecOf b := hmono _ _ h2
    exact ⟨mid, rfl, hconc, rfl, ⟨m1, m2, m3, m4⟩, ⟨m1, m2, m3, m4⟩⟩

/-- C5: when course `a` lies in a concurrency group (of a symmetric
concurrency relation) containing course `b`, then immediately after
`add_prerequisite(a, p)` the query `get_prerequisites(b)` returns a set that
includes `p`: the new edge is attributed to every member of `a`'s closure. -/
theorem addPrerequisite_propagates_to_group {st : Courses} {a p b : CourseName} {st' : Courses}
    (hsym : SymOn st.concurrencies = true) (hreach : ReachC st.concurrencies a b)
    (h : st.addPrerequisite a p = some st') :
    ∃ l, st'.getPrerequisites b = some l ∧ p ∈ l := by
  have hmem : p ∈ st'.prerequisites.vecOf b := addPrerequisite_group hsym hreach h
  obtain ⟨v, hv, hp⟩ := MMap.mem_vecOf hmem
  exact ⟨v, hv, hp⟩

/-- C9: after `add_concurrency(a, b)` the name `b` appears among `a`'s
concurrency partners and `a` appears among `b`'s: the operation records both
directed edges, keeping the relation symmetric. -/
theorem addConcurrency_symmetric {st : Courses} {a b : CourseName} {st' : Courses}
    (h : st.addConcurrency a b = some st') :
    b ∈ st'.concurrencies.vecOf a ∧ a ∈ st'.concurrencies.vecOf b := by
  unfold Courses.addConcurrency at h
  cases hm : (if st.prerequisites.containsKey a || st.prerequisites.containsKey b
      then st.combineConcurrentPrereqs a b else some st) with
  | none => rw [hm] at h; cases h
  | some st1 =>
    rw [hm] at h
    simp only at h
    obtain rfl :
        ({ st1 with concurrencies := (st1.concurrencies.insertMM a b).insertMM b a } : Courses)
          = st' := by
      injection h
    constructor
    · exact MMap.mem_vecOf_insertMM (MMap.self_mem_vecOf_insertMM _ _ _)
    · exact MMap.self_mem_vecOf_insertMM _ _ _

/-- C6 (amended): for a course `c` with at least one concurrency edge, a
successful `get_concurrents_for(c)` returns the set of ALL members of `c`'s
concurrency group — `c` itself included — and the total credits of that whole
set, `c`'s own credits counted (the source's DFS reaches `c` again through
its neighbours' back edges and never excludes it). -/
theorem getConcurrentsFor_closure_spec {st : Courses} {c : CourseName}
    {S : List CourseName} {u : Nat}
    (hsym : SymOn st.concurrencies = true)
    (h : st.getConcurrentsForC c = some (some (S, u))) :
    (∀ x, x ∈ S ↔ ReachC st.concurrencies c x) ∧ c ∈ S ∧
      concUnits st.master S = some u ∧
      u = (S.map (fun n => ((lookupCourse st.master n).map Course.credits).getD 0)).sum := by
  unfold Courses.getConcurrentsForC at h
  obtain ⟨hne, hcu, hvals, hreach, hcomp⟩ := getConcurrentsFor_some_spec h
  have hiff : ∀ x, x ∈ S ↔ ReachC st.concurrencies c x :=
    fun x => ⟨fun hx => hreach x hx, fun hr => hcomp hsym x hr⟩
  exact ⟨hiff, (hiff c).mpr (ReachC.refl c), hcu, concUnits_eq_sum hcu⟩

/-- C7 (amended): `remove_concurrency(a, b)` returns the normal, non-fatal
"not found" outcome precisely when `a` or `b` is missing from the concurrency
relation's keys; the state is left unchanged.  (When both are keys but no
edge between them exists, the source instead aborts on `unwrap` — see the
counterexample.) -/
theorem removeConcurrency_missing_key {st : Courses} {a b : CourseName}
    (h : st.concurrencies.containsKey a = false ∨ st.concurrencies.containsKey b = false) :
    st.removeConcurrency a b = some (none, st) := by
  unfold Courses.removeConcurrency
  have hcond : (!(st.concurrencies.containsKey a) || !(st.concurrencies.containsKey b)) = true := by
    rcases h with h | h <;> simp [h]
  rw [if_pos hcond]

/-- C10: for a course whose availability flags are set for exactly one term
`t`, calling `not_available_by(t)` reverts the flag array to all-false, which
`is_available` interprets as unrestricted: the course is then available in
every term, including `t` itself. -/
theorem notAvailableBy_clears_to_unrestricted (c : Course) (t : TermType)
    (_h1 : c.availability t = true) (h2 : ∀ u, u ≠ t → c.availability u = false) :
    ∀ u, (c.notAvailableBy t).isAvailable u = true := by
  intro u
  have hall : (c.notAvailableBy t).allUnavailable = true := by
    unfold Course.notAvailableBy Course.allUnavailable
    simp only
    have hx : ∀ x : TermType, (if x = t then false else c.availability x) = false := by
      intro x
      by_cases hxt : x = t
      · rw [if_pos hxt]
      · rw [if_neg hxt]
        exact h2 x hxt
    rw [hx, hx, hx, hx]
    rfl
  unfold Course.isAvailable
  rw [hall]
  rfl

/-! ### Lemmas about terms and the candidate loop of the planner -/

theorem lookupCourse_name {master : List Course} {n : CourseName} {c : Course}
    (h : lookupCourse master n = some c) : c.name = n := by
  have := List.find?_some h
  simpa using this

theorem mem_termNames_add {t : Term} {c : Course} {x : CourseName} :
    x ∈ termNames (t.add c) ↔ x ∈ termNames t ∨ x = c.name := by
  unfold Term.add
  by_cases hm : (c.name, c.credits) ∈ t.courses
  · rw [if_pos hm]
    constructor
    · exact Or.inl
    · rintro (h | rfl)
      · exact h
      · exact List.mem_map.mpr ⟨_, hm, rfl⟩
  · rw [if_neg hm]
    show x ∈ (t.courses ++ [(c.name, c.credits)]).map Prod.fst ↔ _
    rw [List.map_append, List.mem_append]
    simp [termNames]

theorem Term.add_type (t : Term) (c : Course) : (t.add c).term_type = t.term_type := by
  unfold Term.add
  by_cases hm : (c.name, c.credits) ∈ t.courses <;> simp [hm]

theorem Term.add_limit (t : Term) (c : Course) : (t.add c).unit_limit = t.unit_limit := by
  unfold Term.add
  by_cases hm : (c.name, c.credits) ∈ t.courses <;> simp [hm]

theorem Term.add_units_le (t : Term) (c : Course) :
    (t.add c).units ≤ t.units + c.credits := by
  unfold Term.add
  by_cases hm : (c.name, c.credits) ∈ t.courses
  · rw [if_pos hm]
    omega
  · rw [if_neg hm]

theorem addClosure_spec (master : List Course) :
    ∀ (S : List CourseName) (t : Term) (pr : List CourseName) (t' : Term)
      (pr' : List CourseName), addClosure master S t pr = some (t', pr') →
      t'.term_type = t.term_type ∧ t'.unit_limit = t.unit_limit ∧
      (∀ u, concUnits master S = some u → t'.units ≤ t.units + u) ∧
      (∀ x ∈ pr, x ∈ pr') ∧ (∀ x ∈ pr', x ∈ pr ∨ x ∈ termNames t') ∧
      (∀ x ∈ S, x ∈ termNames t' ∧ x ∈ pr') ∧
      (∀ x ∈ termNames t', x ∈ termNames t ∨ x ∈ S) ∧
      (∀ x ∈ termNames t, x ∈ termNames t') := by
  intro S
  induction S with
  | nil =>
    intro t pr t' pr' h
    simp only [addClosure] at h
    obtain ⟨rfl, rfl⟩ : t = t' ∧ pr = pr' := by
      injection h with h1
      injection h1 with h2 h3
      exact ⟨h2, h3⟩
    refine ⟨rfl, rfl, ?_, fun x hx => hx, fun x hx => Or.inl hx, by simp,
      fun x hx => Or.inl hx, fun x hx => hx⟩
    intro u hu
    simp only [concUnits] at hu
    cases hu
    omega
  | cons n rest ih =>
    intro t pr t' pr' h
    simp only [addClosure] at h
    cases hl : lookupCourse master n with
    | none => rw [hl] at h; cases h
    | some c =>
      rw [hl] at h
      obtain ⟨i1, i2, i3, i4, i5, i6, i7, i8⟩ := ih (t.add c) (insSet pr c.name) t' pr' h
      have hname : c.name = n := lookupCourse_name hl
      refine ⟨i1.trans (Term.add_type t c), i2.trans (Term.add_limit t c), ?_, ?_, ?_, ?_, ?_, ?_⟩
      · intro u hu
        simp only [concUnits, hl] at hu
        cases hrest : concUnits master rest with
        | none => rw [hrest] at hu; cases hu
        | some sR =>
          rw [hrest] at hu
          cases hu
          have hb := i3 sR hrest
          have ha := Term.add_units_le t c
          omega
      · intro x hx
        exact i4 x (mem_insSet_of_mem hx)
      · intro x hx
        rcases i5 x hx with hx1 | hx1
        · rcases mem_insSet.mp hx1 with hx2 | rfl
          · exact Or.inl hx2
          · exact Or.inr (i8 _ (mem_termNames_add.mpr (Or.inr rfl)))
        · exact Or.inr hx1
      · intro x hx
        rcases List.mem_cons.mp hx with rfl | hx1
        · rw [← hname]
          exact ⟨i8 _ (mem_termNames_add.mpr (Or.inr rfl)), i4 _ mem_insSet_self⟩
        · exact i6 x hx1
      · intro x hx
        rcases i7 x hx with hx1 | hx1
        · rcases mem_termNames_add.mp hx1 with hx2 | rfl
          · exact Or.inl hx2
          · exact Or.inr (hname ▸ List.mem_cons_self _ _)
        · exact Or.inr (List.mem_cons_of_mem _ hx1)
      · intro x hx
        exact i8 x (mem_termNames_add.mpr (Or.inl hx))

theorem sched_spec (master : List Course) (conc : MMap) (pm : MMap) :
    ∀ (l : List CourseName) (t : Term) (pr : List CourseName) (t' : Term)
      (pr' : List CourseName), sched master conc pm l t pr = some (t', pr') →
      t'.term_type = t.term_type ∧ t'.unit_limit = t.unit_limit ∧
      (t.units ≤ t.unit_limit → t'.units ≤ t'.unit_limit) ∧
      (∀ x ∈ pr, x ∈ pr') ∧
      (∀ x ∈ pr', x ∈ pr ∨ x ∈ termNames t') ∧
      (∀ x ∈ termNames t, x ∈ termNames t') ∧
      (∀ x ∈ termNames t', x ∈ termNames t ∨ x ∈ conc.valsOf ∨ pm.containsKey x = false) ∧
      (SymOn conc = true → TermClosed conc t → TermClosed conc t') := by
  intro l
  induction l with
  | nil =>
    intro t pr t' pr' h
    simp only [sched] at h
    obtain ⟨rfl, rfl⟩ : t = t' ∧ pr = pr' := by
      injection h with h1
      injection h1 with h2 h3
      exact ⟨h2, h3⟩
    exact ⟨rfl, rfl, fun hc => hc, fun x hx => hx, fun x hx => Or.inl hx, fun x hx => hx,
      fun x hx => Or.inl hx, fun _ hc => hc⟩
  | cons n rest ih =>
    intro t pr t' pr' h
    simp only [sched] at h
    by_cases hfull : t.isFull
    · rw [if_pos hfull] at h
      obtain ⟨rfl, rfl⟩ : t = t' ∧ pr = pr' := by
        injection h with h1
        injection h1 with h2 h3
        exact ⟨h2, h3⟩
      exact ⟨rfl, rfl, fun hc => hc, fun x hx => hx, fun x hx => Or.inl hx, fun x hx => hx,
        fun x hx => Or.inl hx, fun _ hc => hc⟩
    · rw [if_neg hfull] at h
      cases hl : lookupCourse master n with
      | none => rw [hl] at h; cases h
      | some c =>
        rw [hl] at h
        simp only at h
        by_cases hguard : (pm.containsKey n || !(t.canAddCourse c)) = true
        · rw [if_pos hguard] at h
          exact ih t pr t' pr' h
        · rw [if_neg hguard] at h
          have hguard2 : (pm.containsKey n || !(t.canAddCourse c)) = false := by
            simpa using hguard
          have hkey : pm.containsKey n = false := by
            rcases Bool.or_eq_false_iff.mp hguard2 with ⟨hk, -⟩
            exact hk
          have hcan : t.canAddCourse c = true := by
            rcases Bool.or_eq_false_iff.mp hguard2 with ⟨-, hk⟩
            simpa using hk
          have hname : c.name = n := lookupCourse_name hl
          cases hg : getConcurrentsFor conc master n with
          | none => rw [hg] at h; cases h
          | some o =>
            rw [hg] at h
            cases o with
            | none =>
              simp only at h
              obtain ⟨i1, i2, i3, i4, i5, i6, i7, i8⟩ := ih (t.add c) (insSet pr c.name) t' pr' h
              have hvec : conc.vecOf n = [] := getConcurrentsFor_none_vecOf hg
              refine ⟨i1.trans (Term.add_type t c), i2.trans (Term.add_limit t c), ?_, ?_, ?_,
                ?_, ?_, ?_⟩
              · intro hcap
                refine i3 ?_
                have hle := Term.add_units_le t c
                have hcan' : c.credits + t.units ≤ t.unit_limit := by
                  have := hcan
                  unfold Term.canAddCourse Term.canAddUnits at this
                  exact of_decide_eq_true this
                rw [Term.add_limit t c]
                omega
              · intro x hx
                exact i4 x (mem_insSet_of_mem hx)
              · intro x hx
                rcases i5 x hx with hx1 | hx1
                · rcases mem_insSet.mp hx1 with hx2 | rfl
                  · exact Or.inl hx2
                  · exact Or.inr (i6 _ (mem_termNames_add.mpr (Or.inr rfl)))
                · exact Or.inr hx1
              · intro x hx
                exact i6 x (mem_termNames_add.mpr (Or.inl hx))
              · intro x hx
                rcases i7 x hx with hx1 | hx1 | hx1
                · rcases mem_termNames_add.mp hx1 with hx2 | rfl
                  · exact Or.inl hx2
                  · exact Or.inr (Or.inr (hname.symm ▸ hkey))
                · exact Or.inr (Or.inl hx1)
                · exact Or.inr (Or.inr hx1)
              · intro hsym hclosed
                refine i8 hsym ?_
                intro x hx y hr
                rcases mem_termNames_add.mp hx with hx1 | rfl
                · exact mem_termNames_add.mpr (Or.inl (hclosed x hx1 y hr))
                · have hy : y = c.name := reach_isolated (hname.symm ▸ hvec) hr
                  subst hy
                  exact hx
            | some p =>
              obtain ⟨S, u⟩ := p
              simp only at h
              by_cases hcu : t.canAddUnits u
              · rw [if_neg (by simpa using hcu)] at h
                cases hac : addClosure master S t pr with
                | none => rw [hac] at h; cases h
                | some q =>
                  obtain ⟨t1, pr1⟩ := q
                  rw [hac] at h
                  obtain ⟨a1, a2, a3, a4, a5, a6, a7, a8⟩ := addClosure_spec master S t pr t1 pr1 hac
                  obtain ⟨i1, i2, i3, i4, i5, i6, i7, i8⟩ := ih t1 pr1 t' pr' h
                  obtain ⟨hSne, hScu, hSvals, hSreach, hScomp⟩ := getConcurrentsFor_some_spec hg
                  refine ⟨i1.trans a1, i2.trans a2, ?_, ?_, ?_, ?_, ?_, ?_⟩
                  · intro hcap
                    refine i3 ?_
                    have hb := a3 u hScu
                    have hcu' : u + t.units ≤ t.unit_limit := by
                      have := hcu
                      unfold Term.canAddUnits at this
                      exact of_decide_eq_true this
                    rw [a2]
                    omega
                  · intro x hx
                    exact i4 x (a4 x hx)
                  · intro x hx
                    rcases i5 x hx with hx1 | hx1
                    · rcases a5 x hx1 with hx2 | hx2
                      · exact Or.inl hx2
                      · exact Or.inr (i6 _ hx2)
                    · exact Or.inr hx1
                  · intro x hx
                    exact i6 x (a8 x hx)
                  · intro x hx
                    rcases i7 x hx with hx1 | hx1 | hx1
                    · rcases a7 x hx1 with hx2 | hx2
                      · exact Or.inl hx2
                      · exact Or.inr (Or.inl (hSvals x hx2))
                    · exact Or.inr (Or.inl hx1)
                    · exact Or.inr (Or.inr hx1)
                  · intro hsym hclosed
                    refine i8 hsym ?_
                    intro x hx y hr
                    rcases a7 x hx with hx1 | hx1
                    · exact a8 _ (hclosed x hx1 y hr)
                    · have hny : ReachC conc n y := ReachC.trans (hSreach x hx1) hr
                      exact (a6 y (hScomp hsym y hny)).1
              · rw [if_pos (by simpa using hcu)] at h
                exact ih t pr t' pr' h

/-! ### Pruning of the working prerequisite copy, and list-index helpers -/

theorem mem_pruneVec {v pr : List CourseName} {x : CourseName} :
    x ∈ pruneVec v pr ↔ x ∈ v ∧ x ∉ pr ∧ x ≠ "" := by
  simp only [pruneVec, List.mem_filter, decide_eq_true_eq]
  tauto

theorem pruneVec_eq_filter (v pr : List CourseName) :
    pruneVec v pr = v.filter (fun x => decide (x ≠ "") && decide (x ∉ pr)) := by
  unfold pruneVec
  rw [List.filter_filter]

theorem pruneVec_pruneVec {P P' : List CourseName} (hsub : ∀ x ∈ P, x ∈ P')
    (v : List CourseName) : pruneVec (pruneVec v P) P' = pruneVec v P' := by
  rw [pruneVec_eq_filter, pruneVec_eq_filter, pruneVec_eq_filter, List.filter_filter]
  refine List.filter_congr ?_
  intro x _
  by_cases hP' : x ∈ P'
  · simp [hP']
  · have hP : x ∉ P := fun hc => hP' (hsub x hc)
    by_cases he : x = ""
    · simp [he]
    · simp [hP, hP', he]

theorem pruneVec_nil_mono {P P' : List CourseName} (hsub : ∀ x ∈ P, x ∈ P')
    {v : List CourseName} (h : pruneVec v P = []) : pruneVec v P' = [] := by
  cases hc : pruneVec v P' with
  | nil => rfl
  | cons a r =>
    have ha : a ∈ pruneVec v P' := by
      rw [hc]
      exact List.mem_cons_self _ _
    obtain ⟨hav, haP', hae⟩ := mem_pruneVec.mp ha
    have haP : a ∈ pruneVec v P :=
      mem_pruneVec.mpr ⟨hav, fun hc2 => haP' (hsub a hc2), hae⟩
    rw [h] at haP
    cases haP

theorem pruneMM_containsKey_false {m : MMap} {P : List CourseName} {k x : CourseName}
    (hx : x ∈ m.vecOf k) (hxe : x ≠ "")
    (h : (pruneMM m P).containsKey k = false) : x ∈ P := by
  by_contra hxP
  obtain ⟨v, hv, hxv⟩ := MMap.mem_vecOf hx
  have hentry : (k, v) ∈ m := MMap.getVec_mem hv
  have hfil : x ∈ pruneVec v P := mem_pruneVec.mpr ⟨hxv, hxP, hxe⟩
  have hne : (pruneVec v P).isEmpty = false := by
    cases hq : pruneVec v P with
    | nil => rw [hq] at hfil; cases hfil
    | cons a r => rfl
  have hmem : (k, pruneVec v P) ∈ pruneMM m P := by
    unfold pruneMM
    refine List.mem_filter.mpr ⟨?_, by simpa using hne⟩
    exact List.mem_map.mpr ⟨(k, v), hentry, rfl⟩
  have hnone : (pruneMM m P).getVec k = none := by
    cases ho : (pruneMM m P).getVec k with
    | none => rfl
    | some w =>
      unfold MMap.containsKey at h
      rw [ho] at h
      cases h
  exact MMap.getVec_eq_none_iff.mp hnone _ hmem rfl

theorem pruneMM_cons (e : CourseName × List CourseName) (rest : MMap) (P : List CourseName) :
    pruneMM (e :: rest) P =
      if (pruneVec e.2 P).isEmpty then pruneMM rest P
      else (e.1, pruneVec e.2 P) :: pruneMM rest P := by
  unfold pruneMM
  simp only [List.map_cons, List.filter_cons]
  by_cases hq : (pruneVec e.2 P).isEmpty
  · have hcond : ¬ ((!(pruneVec e.2 P).isEmpty) = true) := by
      rw [hq]
      decide
    rw [if_neg hcond, if_pos hq]
  · have hq' : (pruneVec e.2 P).isEmpty = false := by
      cases hb : (pruneVec e.2 P).isEmpty
      · rfl
      · exact absurd hb hq
    have hcond : (!(pruneVec e.2 P).isEmpty) = true := by
      rw [hq']
      decide
    rw [if_pos hcond, if_neg hq]

theorem pruneMM_compose {m : MMap} {P P' : List CourseName} (hsub : ∀ x ∈ P, x ∈ P') :
    pruneMM (pruneMM m P) P' = pruneMM m P' := by
  induction m with
  | nil => rfl
  | cons e rest ih =>
    rw [pruneMM_cons, pruneMM_cons]
    by_cases h1 : (pruneVec e.2 P).isEmpty
    · rw [if_pos h1, ih]
      have hnilP : pruneVec e.2 P = [] := by
        cases hq : pruneVec e.2 P with
        | nil => rfl
        | cons a r => rw [hq] at h1; cases h1
      have hnilP' : pruneVec e.2 P' = [] := pruneVec_nil_mono hsub hnilP
      rw [if_pos (by rw [hnilP']; rfl)]
    · rw [if_neg h1, pruneMM_cons]
      simp only
      rw [pruneVec_pruneVec hsub, ih]

theorem termsGetD_append_left {l l' : List Term} {i : Nat} (d : Term) (h : i < l.length) :
    (l ++ l').getD i d = l.getD i d := by
  induction l generalizing i with
  | nil => cases h
  | cons a r ih =>
    cases i with
    | zero => rfl
    | succ j =>
      have hj : j < r.length := by simpa using h
      simp only [List.cons_append, List.getD_cons_succ]
      exact ih hj

theorem termsGetD_append_self {l : List Term} (t d : Term) :
    (l ++ [t]).getD l.length d = t := by
  induction l with
  | nil => rfl
  | cons a r ih =>
    simp only [List.cons_append, List.length_cons, List.getD_cons_succ]
    exact ih

/-! ### The planner loop at pass granularity -/

theorem runPlan_spec {master : List Course} {conc : MMap} {limits : TermType → Nat}
    (Inv : PlanState → Prop)
    (hstep : ∀ s s', Inv s → passOnce master conc limits s = some s' → Inv s') :
    ∀ (fuel : Nat) (s : PlanState) (r : Option (List Term)), Inv s →
      runPlan master conc limits fuel s = some r →
      ∃ sf, Inv sf ∧ ¬ sf.processed.length < master.length ∧
        r = (if sf.terms.isEmpty then none else some sf.terms) := by
  intro fuel
  induction fuel with
  | zero =>
    intro s r hs h
    rw [runPlan] at h
    by_cases hlt : s.processed.length < master.length
    · rw [if_pos hlt] at h
      cases h
    · rw [if_neg hlt] at h
      refine ⟨s, hs, hlt, ?_⟩
      injection h with h1
      exact h1.symm
  | succ n ih =>
    intro s r hs h
    rw [runPlan] at h
    by_cases hlt : s.processed.length < master.length
    · rw [if_pos hlt] at h
      cases hp : passOnce master conc limits s with
      | none => rw [hp] at h; cases h
      | some s' =>
        rw [hp] at h
        exact ih s' r (hstep s s' hs hp) h
    · rw [if_neg hlt] at h
      refine ⟨s, hs, hlt, ?_⟩
      injection h with h1
      exact h1.symm

theorem passOnce_elim {master : List Course} {conc : MMap} {limits : TermType → Nat}
    {s s' : PlanState} (h : passOnce master conc limits s = some s') :
    ∃ t pr', sched master conc s.prereqs s.listFor (Term.new s.cur (limits s.cur)) s.processed
        = some (t, pr') ∧
      s'.processed = pr' ∧ s'.prereqs = pruneMM s.prereqs pr' ∧
      s'.terms = (if t.isEmpty then s.terms else s.terms ++ [t]) ∧ s'.cur = s.cur.next := by
  unfold passOnce at h
  cases hs : sched master conc s.prereqs s.listFor (Term.new s.cur (limits s.cur)) s.processed with
  | none => rw [hs] at h; cases h
  | some p =>
    obtain ⟨t, pr'⟩ := p
    rw [hs] at h
    simp only at h
    refine ⟨t, pr', rfl, ?_⟩
    obtain rfl := (Option.some.injEq _ _).mp h
    exact ⟨rfl, rfl, rfl, rfl⟩

theorem termNames_isEmpty_false {t : Term} {x : CourseName} (hx : x ∈ termNames t) :
    t.isEmpty = false := by
  unfold Term.isEmpty
  unfold termNames at hx
  cases hc : t.courses with
  | nil => rw [hc] at hx; cases hx
  | cons a r => rfl

theorem termNames_new (tt : TermType) (lim : Nat) : termNames (Term.new tt lim) = [] := rfl

/-- C2: whenever `get_terms` returns a plan, every emitted term keeps its
accumulated units within its configured unit limit, and that limit is exactly
the capacity-array entry for the term's kind. -/
theorem getTerms_capacity {st : Courses} {limits : TermType → Nat} {fuel : Nat}
    {terms : List Term} (h : st.getTerms limits fuel = some (some terms)) :
    ∀ t ∈ terms, t.units ≤ t.unit_limit ∧ t.unit_limit = limits t.term_type := by
  unfold Courses.getTerms at h
  have hstep : ∀ s s',
      (∀ t ∈ s.terms, t.units ≤ t.unit_limit ∧ t.unit_limit = limits t.term_type) →
      passOnce st.master st.concurrencies limits s = some s' →
      ∀ t ∈ s'.terms, t.units ≤ t.unit_limit ∧ t.unit_limit = limits t.term_type := by
    intro s s' hs hp
    obtain ⟨t, pr', hsched, -, -, hterms, -⟩ := passOnce_elim hp
    obtain ⟨s1, s2, s3, -, -, -, -, -⟩ :=
      sched_spec st.master st.concurrencies s.prereqs s.listFor _ s.processed t pr' hsched
    intro t2 ht2
    rw [hterms] at ht2
    by_cases hemp : t.isEmpty
    · rw [if_pos hemp] at ht2
      exact hs t2 ht2
    · rw [if_neg hemp] at ht2
      rcases List.mem_append.mp ht2 with ht2 | ht2
      · exact hs t2 ht2
      · obtain rfl : t = t2 := by
          cases List.mem_singleton.mp ht2
          rfl
        have hcap : t.units ≤ t.unit_limit := s3 (Nat.zero_le _)
        have hlim : t.unit_limit = limits t.term_type := by
          rw [s1, s2]
          rfl
        exact ⟨hcap, hlim⟩
  obtain ⟨sf, hInv, -, hr⟩ := runPlan_spec
    (fun s => ∀ t ∈ s.terms, t.units ≤ t.unit_limit ∧ t.unit_limit = limits t.term_type)
    hstep fuel (initPlan st) (some terms) (by intro t ht; cases ht) h
  by_cases hemp : sf.terms.isEmpty
  · rw [if_pos hemp] at hr
    cases hr
  · rw [if_neg hemp] at hr
    obtain rfl : sf.terms = terms := by
      injection hr with h1
      exact h1.symm
    exact hInv

/-- C3: for a catalog with symmetric concurrency relation, every term of a
returned plan is closed under the concurrency relation: together with any
assigned course it contains that course's entire concurrency group, so no
term holds a non-empty strict subset of a group. -/
theorem getTerms_group_atomicity {st : Courses} {limits : TermType → Nat} {fuel : Nat}
    {terms : List Term} (hsym : SymOn st.concurrencies = true)
    (h : st.getTerms limits fuel = some (some terms)) :
    ∀ t ∈ terms, ∀ x ∈ termNames t, ∀ y, ReachC st.concurrencies x y → y ∈ termNames t := by
  unfold Courses.getTerms at h
  have hstep : ∀ s s', (∀ t ∈ s.terms, TermClosed st.concurrencies t) →
      passOnce st.master st.concurrencies limits s = some s' →
      ∀ t ∈ s'.terms, TermClosed st.concurrencies t := by
    intro s s' hs hp
    obtain ⟨t, pr', hsched, -, -, hterms, -⟩ := passOnce_elim hp
    obtain ⟨-, -, -, -, -, -, -, s8⟩ :=
      sched_spec st.master st.concurrencies s.prereqs s.listFor _ s.processed t pr' hsched
    intro t2 ht2
    rw [hterms] at ht2
    by_cases hemp : t.isEmpty
    · rw [if_pos hemp] at ht2
      exact hs t2 ht2
    · rw [if_neg hemp] at ht2
      rcases List.mem_append.mp ht2 with ht2 | ht2
      · exact hs t2 ht2
      · obtain rfl : t = t2 := by
          cases List.mem_singleton.mp ht2
          rfl
        refine s8 hsym ?_
        intro x hx
        rw [termNames_new] at hx
        cases hx
  obtain ⟨sf, hInv, -, hr⟩ := runPlan_spec
    (fun s => ∀ t ∈ s.terms, TermClosed st.concurrencies t)
    hstep fuel (initPlan st) (some terms) (by intro t ht; cases ht) h
  by_cases hemp : sf.terms.isEmpty
  · rw [if_pos hemp] at hr
    cases hr
  · rw [if_neg hemp] at hr
    obtain rfl : sf.terms = terms := by
      injection hr with h1
      exact h1.symm
    exact hInv

/-- C8 (amended): whenever `get_terms` terminates and returns, the result is
`None` exactly when the catalog contains no courses, and every returned
`Some` plan is non-empty.  (A first pass that schedules nothing does NOT
force `None`: later passes still run — see the counterexample.) -/
theorem getTerms_none_iff_empty {st : Courses} {limits : TermType → Nat} {fuel : Nat}
    {r : Option (List Term)} (h : st.getTerms limits fuel = some r) :
    (r = none ↔ st.master = []) ∧ (∀ ts, r = some ts → ts ≠ []) := by
  unfold Courses.getTerms at h
  have hstep : ∀ s s', (s.processed ≠ [] → s.terms ≠ []) →
      passOnce st.master st.concurrencies limits s = some s' →
      (s'.processed ≠ [] → s'.terms ≠ []) := by
    intro s s' hs hp
    obtain ⟨t, pr', hsched, hproc, -, hterms, -⟩ := passOnce_elim hp
    obtain ⟨-, -, -, -, s5, -, -, -⟩ :=
      sched_spec st.master st.concurrencies s.prereqs s.listFor _ s.processed t pr' hsched
    intro hne
    rw [hproc] at hne
    rw [hterms]
    by_cases hold : s.processed = []
    · obtain ⟨x, hx⟩ : ∃ x, x ∈ pr' := by
        cases hc : pr' with
        | nil => exact absurd hc hne
        | cons a rest =>
          refine ⟨a, ?_⟩
          exact List.mem_cons_self _ _
      rcases s5 x hx with hx1 | hx1
      · rw [hold] at hx1
        cases hx1
      · rw [if_neg (by rw [termNames_isEmpty_false hx1]; decide)]
        intro hc
        cases List.append_eq_nil.mp hc |>.2
    · have hne2 := hs hold
      by_cases hemp : t.isEmpty
      · rw [if_pos hemp]
        exact hne2
      · rw [if_neg hemp]
        intro hc
        cases List.append_eq_nil.mp hc |>.2
  obtain ⟨sf, hInv, hdone, hr⟩ := runPlan_spec
    (fun s => s.processed ≠ [] → s.terms ≠ [])
    hstep fuel (initPlan st) r (by intro hc; cases hc rfl) h
  constructor
  · constructor
    · intro hrn
      subst hrn
      by_cases hemp : sf.terms.isEmpty
      · have htermsnil : sf.terms = [] := by
          cases hc : sf.terms with
          | nil => rfl
          | cons a rest => rw [hc] at hemp; cases hemp
        have hprocnil : sf.processed = [] := by
          by_contra hc
          exact hInv hc htermsnil
        have hle : st.master.length ≤ sf.processed.length := Nat.le_of_not_lt hdone
        rw [hprocnil] at hle
        cases hm : st.master with
        | nil => rfl
        | cons a rest =>
          rw [hm] at hle
          simp at hle
      · rw [if_neg hemp] at hr
        cases hr
    · intro hm
      rw [hm] at h
      cases fuel with
      | zero =>
        rw [runPlan] at h
        rw [if_neg (by simp [initPlan])] at h
        injection h with h1
        exact h1.symm
      | succ n =>
        rw [runPlan] at h
        rw [if_neg (by simp [initPlan])] at h
        injection h with h1
        exact h1.symm
  · intro ts hts
    subst hts
    by_cases hemp : sf.terms.isEmpty
    · rw [if_pos hemp] at hr
      cases hr
    · rw [if_neg hemp] at hr
      obtain rfl : sf.terms = ts := by
        injection hr with h1
        exact h1.symm
      intro hc
      rw [hc] at hemp
      exact hemp rfl

/-- C1 (amended): for every prerequisite edge `course → depends_on` present
at planning start whose source course never occurs among the concurrency
relation's partner lists — so it cannot be pulled into a term through some
other course's concurrency closure — every plan term containing the course
is preceded by a strictly earlier term containing the dependency, provided
the dependency's name is non-empty.  (The `multimap` crate's `retain`
applies its predicate to every value string, so the end-of-pass
`retain(|_k, v| v.len() > 0)` silently deletes the empty-string name from
every prerequisite vector, voiding the edge; and without the closure
proviso the ordering invariant fails on the code: see the
counterexample.) -/
theorem getTerms_prereq_ordering {st : Courses} {limits : TermType → Nat} {fuel : Nat}
    {terms : List Term} {c d : CourseName}
    (hedge : d ∈ st.prerequisites.vecOf c)
    (hdne : d ≠ "")
    (hnv : c ∉ st.concurrencies.valsOf)
    (h : st.getTerms limits fuel = some (some terms)) :
    ∀ j, j < terms.length → c ∈ termNames (terms.getD j (Term.new .Fall 0)) →
      ∃ i, i < j ∧ d ∈ termNames (terms.getD i (Term.new .Fall 0)) := by
  unfold Courses.getTerms at h
  have hstep : ∀ s s',
      ((s.prereqs = st.prerequisites ∨ s.prereqs = pruneMM st.prerequisites s.processed) ∧
        (∀ x ∈ s.processed, ∃ i, i < s.terms.length ∧
          x ∈ termNames (s.terms.getD i (Term.new .Fall 0))) ∧
        (∀ j, j < s.terms.length → c ∈ termNames (s.terms.getD j (Term.new .Fall 0)) →
          ∃ i, i < j ∧ d ∈ termNames (s.terms.getD i (Term.new .Fall 0)))) →
      passOnce st.master st.concurrencies limits s = some s' →
      ((s'.prereqs = st.prerequisites ∨ s'.prereqs = pruneMM st.prerequisites s'.processed) ∧
        (∀ x ∈ s'.processed, ∃ i, i < s'.terms.length ∧
          x ∈ termNames (s'.terms.getD i (Term.new .Fall 0))) ∧
        (∀ j, j < s'.terms.length → c ∈ termNames (s'.terms.getD j (Term.new .Fall 0)) →
          ∃ i, i < j ∧ d ∈ termNames (s'.terms.getD i (Term.new .Fall 0)))) := by
    intro s s' hInv hp
    obtain ⟨hP, hproc, hIc⟩ := hInv
    obtain ⟨t, pr', hsched, hproc', hpre', hterms', -⟩ := passOnce_elim hp
    obtain ⟨-, -, -, s4, s5, -, s7, -⟩ :=
      sched_spec st.master st.concurrencies s.prereqs s.listFor _ s.processed t pr' hsched
    refine ⟨?_, ?_, ?_⟩
    · rw [hpre', hproc']
      rcases hP with hP | hP
      · rw [hP]
        exact Or.inr rfl
      · rw [hP, pruneMM_compose s4]
        exact Or.inr rfl
    · intro x hx
      rw [hproc'] at hx
      rw [hterms']
      rcases s5 x hx with hx1 | hx1
      · obtain ⟨i, hi, hmem⟩ := hproc x hx1
        by_cases hemp : t.isEmpty
        · rw [if_pos hemp]
          exact ⟨i, hi, hmem⟩
        · rw [if_neg hemp]
          refine ⟨i, ?_, ?_⟩
          · simp only [List.length_append, List.length_cons, List.length_nil]
            omega
          · rw [termsGetD_append_left _ hi]
            exact hmem
      · rw [if_neg (by rw [termNames_isEmpty_false hx1]; decide)]
        refine ⟨s.terms.length, ?_, ?_⟩
        · simp only [List.length_append, List.length_cons, List.length_nil]
          omega
        · rw [termsGetD_append_self]
          exact hx1
    · intro j hj hc2
      rw [hterms'] at hj hc2 ⊢
      by_cases hemp : t.isEmpty
      · rw [if_pos hemp] at hj hc2 ⊢
        exact hIc j hj hc2
      · rw [if_neg hemp] at hj hc2 ⊢
        by_cases hjl : j < s.terms.length
        · rw [termsGetD_append_left _ hjl] at hc2
          obtain ⟨i, hij, hd⟩ := hIc j hjl hc2
          have hil : i < s.terms.length := lt_trans hij hjl
          refine ⟨i, hij, ?_⟩
          rw [termsGetD_append_left _ hil]
          exact hd
        · have hj2 : j = s.terms.length := by
            simp only [List.length_append, List.length_cons, List.length_nil] at hj
            omega
          subst hj2
          rw [termsGetD_append_self] at hc2
          rcases s7 c hc2 with hx1 | hx1 | hx1
          · rw [termNames_new] at hx1
            cases hx1
          · exact absurd hx1 hnv
          · have hdproc : d ∈ s.processed := by
              rcases hP with hP | hP
              · rw [hP] at hx1
                have hck := MMap.containsKey_of_mem_vecOf hedge
                rw [hck] at hx1
                cases hx1
              · rw [hP] at hx1
                exact pruneMM_containsKey_false hedge hdne hx1
            obtain ⟨i, hi, hd⟩ := hproc d hdproc
            refine ⟨i, hi, ?_⟩
            rw [termsGetD_append_left _ hi]
            exact hd
  obtain ⟨sf, hInvf, -, hr⟩ := runPlan_spec
    (fun s =>
      (s.prereqs = st.prerequisites ∨ s.prereqs = pruneMM st.prerequisites s.processed) ∧
      (∀ x ∈ s.processed, ∃ i, i < s.terms.length ∧
        x ∈ termNames (s.terms.getD i (Term.new .Fall 0))) ∧
      (∀ j, j < s.terms.length → c ∈ termNames (s.terms.getD j (Term.new .Fall 0)) →
        ∃ i, i < j ∧ d ∈ termNames (s.terms.getD i (Term.new .Fall 0))))
    hstep fuel (initPlan st) (some terms)
    ⟨Or.inl rfl, by intro x hx; simp [initPlan] at hx, by intro j hj hcc; simp [initPlan] at hj⟩ h
  obtain ⟨-, -, hIcf⟩ := hInvf
  by_cases hemp : sf.terms.isEmpty
  · rw [if_pos hemp] at hr
    cases hr
  · rw [if_neg hemp] at hr
    obtain rfl : sf.terms = terms := by
      injection hr with h1
      exact h1.symm
    exact hIcf

/-! ### Concrete counterexamples and witnesses -/

/-- C1 counterexample: in the catalog `exOrd`, built through public API
calls only, the prerequisite edge `y → p` is present at planning start and
both names are catalog courses, yet the returned plan places `y` and its
still-unscheduled prerequisite `p` in the SAME term (index 1, via `x`'s
concurrency closure), so the index of the term containing the dependency is
not strictly smaller than the index of the term containing the course. -/
theorem getTerms_ordering_cex :
    exOrd.map (fun s => s.getTerms capTen 10) = some (some (some [exOrdT0, exOrdT1])) ∧
    exOrd.map (fun s => s.prerequisites.vecOf "y") = some ["p"] ∧
    exOrd.map (fun s => s.concurrencies) = some [("x", ["y"]), ("y", ["x"])] ∧
    exOrd.map (fun s => s.master.map Course.name) = some ["x", "y", "p", "q"] ∧
    ¬ (∀ i, i < 2 → ∀ j, j < 2 →
        "p" ∈ termNames ([exOrdT0, exOrdT1].getD i (Term.new .Fall 0)) →
        "y" ∈ termNames ([exOrdT0, exOrdT1].getD j (Term.new .Fall 0)) → i < j) :=
  ⟨rfl, rfl, rfl, rfl,
    fun hall => absurd (hall 1 (by decide) 1 (by decide) (by decide) (by decide)) (by decide)⟩

/-- C1 witness: in the concurrency-free catalog `exOrdW` the amended
ordering theorem places the dependency `B` in a strictly earlier term than
the course `A`. -/
theorem getTerms_prereq_ordering_witness :
    ∃ i, i < 1 ∧ "B" ∈ termNames ([exOrdWT0, exOrdWT1].getD i (Term.new .Fall 0)) :=
  @getTerms_prereq_ordering exOrdW (fun _ => 4) 5 [exOrdWT0, exOrdWT1] "A" "B"
    (by decide) (by decide) (by decide) rfl 1 (by decide) (by decide)

/-- C2 witness: the capacity theorem applied to the one-course catalog. -/
theorem getTerms_capacity_witness :
    exCapT.units ≤ exCapT.unit_limit ∧ exCapT.unit_limit = capTen exCapT.term_type :=
  @getTerms_capacity exCap capTen 3 [exCapT] rfl exCapT (by decide)

/-- C3 witness: in `exGrp` the term containing `A` also contains its whole
concurrency group, in particular `B`. -/
theorem getTerms_group_atomicity_witness : "B" ∈ termNames exGrpT :=
  @getTerms_group_atomicity exGrp capTen 5 [exGrpT] (by decide) rfl exGrpT
    (by decide) "A" (by decide) "B" (ReachC.tail (ReachC.refl "A") (by decide))

/-- C4 witness: the merge theorem applied to `exMrg`, with the fully merged
state `exMrgR`. -/
theorem addConcurrency_merges_prereqs_witness :
    ∃ mid, exMrg.combineConcurrentPrereqs "a" "b" = some mid ∧
      mid.concurrencies = exMrg.concurrencies ∧
      exMrgR = { mid with
        concurrencies := (mid.concurrencies.insertMM "a" "b").insertMM "b" "a" } ∧
      ("p1" ∈ mid.prerequisites.vecOf "a" ∧ "p2" ∈ mid.prerequisites.vecOf "a" ∧
        "p1" ∈ mid.prerequisites.vecOf "b" ∧ "p2" ∈ mid.prerequisites.vecOf "b") ∧
      ("p1" ∈ exMrgR.prerequisites.vecOf "a" ∧ "p2" ∈ exMrgR.prerequisites.vecOf "a" ∧
        "p1" ∈ exMrgR.prerequisites.vecOf "b" ∧ "p2" ∈ exMrgR.prerequisites.vecOf "b") :=
  @addConcurrency_merges_prereqs exMrg "a" "b" "p1" "p2" exMrgR (by decide) (by decide) rfl

/-- C5 witness: after `exProp.addPrerequisite "a" "p"`, the group partner
`b` reports `p` among its prerequisites. -/
theorem addPrerequisite_propagates_witness :
    ∃ l, exPropR.getPrerequisites "b" = some l ∧ "p" ∈ l :=
  @addPrerequisite_propagates_to_group exProp "a" "p" "b" exPropR (by decide)
    (ReachC.tail (ReachC.refl "a") (by decide)) rfl

/-- C6 counterexample: in `exGrp` the course `A` has one concurrency edge
and no self-loop, yet `get_concurrents_for("A")` returns a set CONTAINING
`A` itself and the total 5 = 3 + 2 counting `A`'s own credits, not the
other-members-only set `{B}` with total 3 that the claim asserts. -/
theorem getConcurrentsFor_self_included_cex :
    exGrp.getConcurrentsForC "A" = some (some (["B", "A"], 5)) ∧
    "A" ∈ (["B", "A"] : List CourseName) ∧ (5 : Nat) ≠ 3 ∧
    "B" ∈ exGrp.concurrencies.vecOf "A" ∧ "A" ∉ exGrp.concurrencies.vecOf "A" :=
  ⟨rfl, by decide, by decide, by decide, by decide⟩

/-- C6 witness: the amended closure theorem applied to `exGrp`. -/
theorem getConcurrentsFor_closure_spec_witness :
    "A" ∈ (["B", "A"] : List CourseName) ∧ concUnits exGrp.master ["B", "A"] = some 5 :=
  ⟨(@getConcurrentsFor_closure_spec exGrp "A" ["B", "A"] 5 (by decide) rfl).2.1,
    (@getConcurrentsFor_closure_spec exGrp "A" ["B", "A"] 5 (by decide) rfl).2.2.1⟩

/-- C7 counterexample: in `exRC` both `A` and `B` appear as keys of the
concurrency relation but no edge between them exists; `remove_concurrency`
then aborts on `unwrap` (the fatal `none`), instead of returning the normal
"not found" outcome that the claim asserts. -/
theorem removeConcurrency_fatal_cex :
    exRC.removeConcurrency "A" "B" = none ∧
    exRC.concurrencies.containsKey "A" = true ∧
    exRC.concurrencies.containsKey "B" = true ∧
    "B" ∉ exRC.concurrencies.vecOf "A" ∧ "A" ∉ exRC.concurrencies.vecOf "B" :=
  ⟨rfl, rfl, rfl, by decide, by decide⟩

/-- C7 witness: removing a concurrency from the empty catalog is a normal
"not found" result. -/
theorem removeConcurrency_missing_key_witness :
    Courses.empty.removeConcurrency "A" "B" = some (none, Courses.empty) :=
  removeConcurrency_missing_key (Or.inl (by decide))

/-- C8 counterexample: for `exWin` (one course available only in Winter) the
first planning pass schedules nothing — processed set and term list are
still empty after it — yet `get_terms` returns `Some` of a non-empty plan,
not `None` as the claim asserts. -/
theorem getTerms_first_pass_cex :
    (passOnce exWin.master exWin.concurrencies capTen (initPlan exWin)).map
        (fun s => (s.processed, s.terms)) = some ([], []) ∧
    exWin.getTerms capTen 10 = some (some [exWinT]) ∧
    exWin.getTerms capTen 10 ≠ some none :=
  ⟨rfl, rfl, by decide⟩

/-- C8 witness: the amended theorem applied to `exWin` yields a non-empty
plan. -/
theorem getTerms_none_iff_empty_witness : ([exWinT] : List Term) ≠ [] :=
  (@getTerms_none_iff_empty exWin capTen 10 (some [exWinT]) rfl).2 [exWinT] rfl

/-- C9 witness: adding a concurrency to the empty catalog records both
directed edges. -/
theorem addConcurrency_symmetric_witness :
    "B" ∈ exSymR.concurrencies.vecOf "A" ∧ "A" ∈ exSymR.concurrencies.vecOf "B" :=
  @addConcurrency_symmetric Courses.empty "A" "B" exSymR rfl

/-- C10 witness: clearing the only set flag of `exAvail` makes the course
available in Winter and in Fall alike. -/
theorem notAvailableBy_clears_witness :
    (exAvail.notAvailableBy .Winter).isAvailable .Winter = true ∧
    (exAvail.notAvailableBy .Winter).isAvailable .Fall = true :=
  ⟨notAvailableBy_clears_to_unrestricted exAvail .Winter rfl
      (by intro u hu; cases u <;> first | rfl | exact absurd rfl hu) .Winter,
    notAvailableBy_clears_to_unrestricted exAvail .Winter rfl
      (by intro u hu; cases u <;> first | rfl | exact absurd rfl hu) .Fall⟩
